import Mathlib

/-!
# Verification of the `suou` SIQ identifier subsystem

Shallow embedding of the parts of the `suou` Python library that the
specification's claims are about:

* `src/suou/bits.py` — `mask_shift`, `count_ones`;
* `src/suou/codecs.py` — base-32 codecs (`cb32encode`, `cb32decode`,
  `b32lencode`) and the alphabet translation tables;
* `src/suou/iding.py` — `SiqType`, `make_domain_hash`, `SiqGen.generate`,
  and the `Siq` value formatting / parsing helpers.

Python integers are modelled as `Nat`/`Int`; byte strings as `List Nat`
(each element `< 256`); text strings as `List Char`.  Fallible operations
(`int.to_bytes` overflow, `base64.b32decode` errors, `Siq.from_did`
checksum failures) return `Option`/`Except`.
-/

namespace Suou

/-! ## Positional digit helpers

Big-endian digit lists, used to model `int.to_bytes` / `int.from_bytes`
(base 256) and the 5-bit digit grouping performed by `base64.b32encode` /
`base64.b32decode` (base 32). -/

/-- Big-endian list of `k` digits of `v` in base `base`
(`int.to_bytes(k, 'big')` is `digitsBE 256 k`). -/
def digitsBE (base : Nat) : Nat → Nat → List Nat
  | 0, _ => []
  | k + 1, v => digitsBE base k (v / base) ++ [v % base]

/-- Recombine a big-endian digit list (`int.from_bytes(_, 'big')` is
`fromDigitsBE 256`). -/
def fromDigitsBE (base : Nat) (ds : List Nat) : Nat :=
  ds.foldl (fun a d => a * base + d) 0

theorem digitsBE_length (base k v : Nat) : (digitsBE base k v).length = k := by
  induction k generalizing v with
  | zero => rfl
  | succ k ih => simp [digitsBE, ih]

theorem foldl_mul_add (base a : Nat) (ds : List Nat) :
    ds.foldl (fun x d => x * base + d) a = a * base ^ ds.length + fromDigitsBE base ds := by
  induction ds generalizing a with
  | nil => simp [fromDigitsBE]
  | cons d tl ih =>
    have hfd : fromDigitsBE base (d :: tl) = d * base ^ tl.length + fromDigitsBE base tl := by
      simpa [fromDigitsBE] using ih d
    simp only [List.foldl_cons, List.length_cons, hfd]
    rw [ih (a * base + d)]
    ring

theorem fromDigitsBE_append (base : Nat) (xs ys : List Nat) :
    fromDigitsBE base (xs ++ ys) =
      fromDigitsBE base xs * base ^ ys.length + fromDigitsBE base ys := by
  simp [fromDigitsBE, List.foldl_append]
  rw [foldl_mul_add]
  rfl

theorem fromDigitsBE_digitsBE (base k v : Nat) (h : v < base ^ k) :
    fromDigitsBE base (digitsBE base k v) = v := by
  induction k generalizing v with
  | zero =>
    rw [pow_zero] at h
    have : v = 0 := by omega
    simp [digitsBE, fromDigitsBE, this]
  | succ k ih =>
    have hb : 0 < base := by
      rcases Nat.eq_zero_or_pos base with h0 | h0
      · subst h0; simp at h
      · exact h0
    have hdiv : v / base < base ^ k := by
      rw [Nat.div_lt_iff_lt_mul hb]
      calc v < base ^ (k + 1) := h
        _ = base ^ k * base := by ring
    simp only [digitsBE, fromDigitsBE, List.foldl_append]
    have := ih (v / base) hdiv
    simp only [fromDigitsBE] at this
    simp only [List.foldl_cons, List.foldl_nil, this]
    rw [Nat.mul_comm, Nat.div_add_mod]

theorem digitsBE_lt (base k v : Nat) (hb : 0 < base) :
    ∀ d ∈ digitsBE base k v, d < base := by
  induction k generalizing v with
  | zero => simp [digitsBE]
  | succ k ih =>
    intro d hd
    simp only [digitsBE, List.mem_append, List.mem_singleton] at hd
    rcases hd with hd | hd
    · exact ih _ d hd
    · subst hd; exact Nat.mod_lt _ hb

theorem digitsBE_fromDigitsBE (base : Nat) (ds : List Nat)
    (h : ∀ d ∈ ds, d < base) :
    digitsBE base ds.length (fromDigitsBE base ds) = ds := by
  induction ds using List.reverseRecOn with
  | nil => simp [digitsBE, fromDigitsBE]
  | append_singleton ds d ih =>
    have hd : d < base := h d (by simp)
    have hb : 0 < base := lt_of_le_of_lt (Nat.zero_le d) hd
    have hds : ∀ x ∈ ds, x < base := fun x hx => h x (by simp [hx])
    have hfa : fromDigitsBE base (ds ++ [d]) = base * fromDigitsBE base ds + d := by
      rw [fromDigitsBE_append]
      simp [fromDigitsBE]
      ring
    simp only [List.length_append, List.length_singleton, digitsBE, hfa]
    rw [Nat.mul_add_div hb, Nat.mul_add_mod, Nat.div_eq_of_lt hd, Nat.add_zero,
      Nat.mod_eq_of_lt hd, ih hds]

/-- Splitting a big-endian digit list at a digit boundary. -/
theorem digitsBE_add (base m n v : Nat) :
    digitsBE base (m + n) v =
      digitsBE base m (v / base ^ n) ++ digitsBE base n (v % base ^ n) := by
  induction n generalizing v with
  | zero => simp [digitsBE, Nat.mod_one]
  | succ n ih =>
    have h1 : v / base / base ^ n = v / base ^ (n + 1) := by
      rw [Nat.div_div_eq_div_mul]
      congr 1
      rw [pow_succ]
      ring
    have h2 : v % base ^ (n + 1) / base = v / base % base ^ n := by
      have hs : base ^ (n + 1) = base * base ^ n := by rw [pow_succ]; ring
      rw [hs, Nat.mod_mul_right_div_self]
    have h3 : v % base ^ (n + 1) % base = v % base := by
      apply Nat.mod_mod_of_dvd
      exact ⟨base ^ n, by ring⟩
    show digitsBE base (m + n + 1) v = _
    simp only [digitsBE, ih (v / base), h1, h2, h3, List.append_assoc]

/-! ## `suou.iding.SiqType` -/

/-- The `SiqType` enum from `src/suou/iding.py`. -/
inductive SiqType
  | CONTENT
  | MULTI
  | MANYTOMANY
  | TERNARY
  | TAG
  | CHANNEL
  | THREAD
  | MESSAGE
  | USER
  | GROUP
  | EVENT
  | INVITE
  | APPLICATION
  | COLLECTION
  | PREMIUM
  deriving DecidableEq, Repr

/-- The numeric codes of `SiqType`. -/
def SiqType.value : SiqType → Nat
  | .CONTENT => 15
  | .MULTI => 11
  | .MANYTOMANY => 13
  | .TERNARY => 9
  | .TAG => 34
  | .CHANNEL => 42
  | .THREAD => 22
  | .MESSAGE => 30
  | .USER => 32
  | .GROUP => 36
  | .EVENT => 40
  | .INVITE => 44
  | .APPLICATION => 48
  | .COLLECTION => 52
  | .PREMIUM => 56

/-- The loop of `SiqType.n_bits`:
`while val > 1: val, lsh = val >> 1, lsh + 1`.
The first argument is recursion fuel; since `val` halves each step,
`fuel = val` always suffices (`nBitsLoop_eq` certifies the recurrence). -/
def nBitsGo : Nat → Nat → Nat → Nat
  | 0, _, lsh => lsh
  | fuel + 1, val, lsh => if val > 1 then nBitsGo fuel (val >>> 1) (lsh + 1) else lsh

def nBitsLoop (val lsh : Nat) : Nat := nBitsGo val val lsh

theorem nBitsGo_fuel (fuel fuel' val lsh : Nat) (h : val ≤ fuel) (h' : val ≤ fuel') :
    nBitsGo fuel val lsh = nBitsGo fuel' val lsh := by
  induction fuel generalizing fuel' val lsh with
  | zero =>
    have : val = 0 := by omega
    subst this
    cases fuel' with
    | zero => rfl
    | succ f => simp [nBitsGo]
  | succ f ih =>
    cases fuel' with
    | zero =>
      have : val = 0 := by omega
      subst this
      simp [nBitsGo]
    | succ f' =>
      simp only [nBitsGo]
      split
      · next hv =>
        apply ih
        · have := Nat.div_lt_self (by omega : 0 < val) (by omega : 1 < 2)
          simp only [Nat.shiftRight_one]
          omega
        · have := Nat.div_lt_self (by omega : 0 < val) (by omega : 1 < 2)
          simp only [Nat.shiftRight_one]
          omega
      · rfl

/-- The loop recurrence, as written in the source. -/
theorem nBitsLoop_eq (val lsh : Nat) :
    nBitsLoop val lsh = if val > 1 then nBitsLoop (val >>> 1) (lsh + 1) else lsh := by
  unfold nBitsLoop
  rcases val with _ | v
  · simp [nBitsGo]
  · simp only [nBitsGo]
    split
    · next hv =>
      apply nBitsGo_fuel
      · simp only [Nat.shiftRight_one]
        have := Nat.div_lt_self (by omega : 0 < v + 1) (by omega : 1 < 2)
        omega
      · exact Nat.le_refl _
    · rfl

/-- `SiqType.n_bits` (a `cached_property` in the source). -/
def SiqType.n_bits (t : SiqType) : Nat := nBitsLoop t.value 0

/-- `SiqType.prepend`: `(other << self.n_bits) | (self.value % (1 << self.n_bits))`. -/
def SiqType.prepend (t : SiqType) (other : Nat) : Nat :=
  (other <<< t.n_bits) ||| (t.value % (1 <<< t.n_bits))

/-! ## SHA-256

`make_domain_hash` uses `hashlib.sha256`.  Modelled from the spec: the
standard SHA-256 (FIPS 180-4) over a byte string, returning the 32-byte
digest, 32-bit words as `Nat` reduced mod `2^32`. -/

namespace SHA256

def rotr (x n : Nat) : Nat := ((x >>> n) ||| (x <<< (32 - n))) % 2 ^ 32

def bigS0 (x : Nat) : Nat := rotr x 2 ^^^ rotr x 13 ^^^ rotr x 22
def bigS1 (x : Nat) : Nat := rotr x 6 ^^^ rotr x 11 ^^^ rotr x 25
def smallS0 (x : Nat) : Nat := rotr x 7 ^^^ rotr x 18 ^^^ (x >>> 3)
def smallS1 (x : Nat) : Nat := rotr x 17 ^^^ rotr x 19 ^^^ (x >>> 10)

def K : List Nat :=
  [1116352408, 1899447441, 3049323471, 3921009573, 961987163, 1508970993,
   2453635748, 2870763221, 3624381080, 310598401, 607225278, 1426881987,
   1925078388, 2162078206, 2614888103, 3248222580, 3835390401, 4022224774,
   264347078, 604807628, 770255983, 1249150122, 1555081692, 1996064986,
   2554220882, 2821834349, 2952996808, 3210313671, 3336571891, 3584528711,
   113926993, 338241895, 666307205, 773529912, 1294757372, 1396182291,
   1695183700, 1986661051, 2177026350, 2456956037, 2730485921, 2820302411,
   3259730800, 3345764771, 3516065817, 3600352804, 4094571909, 275423344,
   430227734, 506948616, 659060556, 883997877, 958139571, 1322822218,
   1537002063, 1747873779, 1955562222, 2024104815, 2227730452, 2361852424,
   2428436474, 2756734187, 3204031479, 3329325298]

def initH : List Nat :=
  [1779033703, 3144134277, 1013904242, 2773480762,
   1359893119, 2600822924, 528734635, 1541459225]

/-- Message padding: append `0x80`, zero bytes, and the 8-byte big-endian
bit length, to a multiple of 64 bytes. -/
def pad (msg : List Nat) : List Nat :=
  let l := msg.length
  let zeros := (64 - (l + 9) % 64) % 64
  msg ++ [0x80] ++ List.replicate zeros 0 ++ digitsBE 256 8 (l * 8)

/-- Split a byte list into 32-bit big-endian words (4 bytes each). -/
def toWords : List Nat → List Nat
  | b0 :: b1 :: b2 :: b3 :: rest => fromDigitsBE 256 [b0, b1, b2, b3] :: toWords rest
  | _ => []

/-- Extend the 16-word block to the 64-word message schedule. -/
def extendW : List Nat → Nat → List Nat
  | ws, 0 => ws
  | ws, n + 1 =>
    let i := ws.length
    let w := (smallS1 (ws.getD (i - 2) 0) + ws.getD (i - 7) 0 +
      smallS0 (ws.getD (i - 15) 0) + ws.getD (i - 16) 0) % 2 ^ 32
    extendW (ws ++ [w]) n

/-- One compression round; the registers `a..h` are a list of 8 words. -/
def round (regs : List Nat) (k w : Nat) : List Nat :=
  match regs with
  | [a, b, c, d, e, f, g, h] =>
    let ch := (e &&& f) ^^^ ((2 ^ 32 - 1 - e) &&& g)
    let maj := (a &&& b) ^^^ (a &&& c) ^^^ (b &&& c)
    let t1 := (h + bigS1 e + ch + k + w) % 2 ^ 32
    let t2 := (bigS0 a + maj) % 2 ^ 32
    [(t1 + t2) % 2 ^ 32, a, b, c, (d + t1) % 2 ^ 32, e, f, g]
  | r => r

def compressBlock (h : List Nat) (block : List Nat) : List Nat :=
  let ws := extendW (toWords block) 48
  let regs := (K.zip ws).foldl (fun r (kw : Nat × Nat) => round r kw.1 kw.2) h
  (h.zip regs).map fun p => (p.1 + p.2) % 2 ^ 32

def processBlocks (h : List Nat) : List Nat → List Nat
  | [] => h
  | b :: bs => processBlocks (compressBlock h ((b :: bs).take 64)) ((b :: bs).drop 64)
termination_by bs => bs.length
decreasing_by
  simp only [List.length_drop, List.length_cons]
  omega

/-- SHA-256 digest (32 bytes) of a byte string. -/
def sha256 (msg : List Nat) : List Nat :=
  (processBlocks initH (pad msg)).flatMap (digitsBE 256 4)

end SHA256

/-! ## `suou.iding.make_domain_hash` and `SiqGen` -/

/-- `make_domain_hash(domain, local_id)`.  Strings are `List Char`;
`domain.encode('ascii')` is modelled by mapping `Char.toNat`. -/
def makeDomainHash (domain : List Char) (localId : Option Nat) : Nat :=
  if domain = [] ∨ domain = ['0'] then 0
  else
    let h := fromDigitsBE 256 ((SHA256.sha256 (domain.map Char.toNat)).drop 28)
    match localId with
    | some l => if l ≠ 0 then ((l % 256) <<< 24) ||| (h % (1 <<< 24)) else h
    | none => h

/-- The mutable state of a `SiqGen` instance.  `counters` models the
Python `dict[SiqType, int]` (`none` = key absent); `testCurTs` models
`_test_cur_ts`. -/
structure SiqGenState where
  domainHash : Nat
  lastGenTs : Nat
  counters : SiqType → Option Nat
  shardId : Nat
  testCurTs : Option Nat

/-- `SiqGen.cur_timestamp`: the test override if set, else the wall
clock (readings are supplied as explicit inputs; Python reads
`int(time.time() * (1 << 16))`). -/
def curTimestamp (st : SiqGenState) (wall : Nat) : Nat :=
  match st.testCurTs with
  | some t => t
  | none => wall

/-- `SiqGen.__init__`.  `pid` models `os.getpid()` and `wallAtInit` the
wall-clock reading during construction.  Note the source computes
`min(last_siq >> 56, self.cur_timestamp())`. -/
def SiqGen.init (domain : List Char) (lastSiq : Nat) (localId : Option Nat)
    (shardId : Option Nat) (pid : Nat) (wallAtInit : Nat) : SiqGenState :=
  { domainHash := makeDomainHash domain localId
    testCurTs := none
    lastGenTs := min (lastSiq >>> 56) wallAtInit
    counters := fun _ => none
    shardId := (match shardId with
      | some s => if s ≠ 0 then s else pid
      | none => pid) % 256 }

/-- `SiqGen.set_cur_timestamp` for an integral datetime, given as epoch
seconds: sets `_test_cur_ts` and `last_gen_ts` to `seconds * 2 ** 16`. -/
def setCurTimestamp (st : SiqGenState) (seconds : Nat) : SiqGenState :=
  { st with testCurTs := some (seconds * 2 ^ 16), lastGenTs := seconds * 2 ^ 16 }

/-- `self.counters[typ] = v`. -/
def setCounter (st : SiqGenState) (t : SiqType) (v : Nat) : SiqGenState :=
  { st with counters := fun u => if u = t then some v else st.counters u }

/-- The overflow spin `while (now := self.cur_timestamp()) <= self.last_gen_ts:
time.sleep(1 / (1 << 16))`.  `wall` is the stream of wall-clock readings,
`ridx` the index of the next reading; `fuel` bounds the number of
iterations (the Python loop can block forever on a frozen clock, which
the model reports as `none`).  Returns the final `now` and reading index. -/
def spinWait (st : SiqGenState) (wall : Nat → Nat) : Nat → Nat → Option (Nat × Nat)
  | _, 0 => none
  | ridx, fuel + 1 =>
    let now := curTimestamp st (wall ridx)
    if now ≤ st.lastGenTs then spinWait st wall (ridx + 1) fuel else some (now, ridx + 1)

/-- The `while n:` loop of `SiqGen.generate`, yielding the produced SIQs
as a list together with the final state. -/
def genLoop (typ : SiqType) (wall : Nat → Nat) (fuel : Nat) :
    Nat → SiqGenState → Nat → Nat → Option (List Nat × SiqGenState)
  | 0, st, _, _ => some ([], st)
  | n + 1, st, now, ridx =>
    -- idseq = typ.prepend(self.counters.setdefault(typ, 0))
    let c := (st.counters typ).getD 0
    let st1 := setCounter st typ c
    let idseq := typ.prepend c
    let emit : Nat → SiqGenState → Nat → Option (List Nat × SiqGenState) :=
      fun now' st' ridx' =>
        let siq := (now' <<< 56) ||| ((st'.shardId % 256) <<< 48) |||
          ((st'.domainHash % (1 <<< 32)) <<< 16) ||| (idseq % (1 <<< 16))
        let st'' := setCounter st' typ ((st'.counters typ).getD 0 + 1)
        (genLoop typ wall fuel n st'' now' ridx').map fun r => (siq :: r.1, r.2)
    if idseq ≥ 1 <<< 16 then
      match spinWait st1 wall ridx fuel with
      | none => none
      | some (now', ridx') =>
        -- self.counters[typ] %= 1 << (16 - typ.n_bits)
        let st2 := setCounter st1 typ ((st1.counters typ).getD 0 % (1 <<< (16 - typ.n_bits)))
        emit now' st2 ridx'
    else emit now st1 ridx

/-- `SiqGen.generate(typ, n)`.  The initial reading is `wall 0`; the
`time.sleep` on clock regression changes no generator state and is
dropped; `elif now > self.last_gen_ts: self.counters[typ] = 0`. -/
def generate (st : SiqGenState) (typ : SiqType) (n : Nat) (wall : Nat → Nat)
    (fuel : Nat) : Option (List Nat × SiqGenState) :=
  let now := curTimestamp st (wall 0)
  let st1 := if now > st.lastGenTs then setCounter st typ 0 else st
  genLoop typ wall fuel n st1 now 1

/-- The ids produced by a `generate` call (`generate_list`). -/
def generateList (st : SiqGenState) (typ : SiqType) (n : Nat) (wall : Nat → Nat)
    (fuel : Nat) : Option (List Nat) :=
  (generate st typ n wall fuel).map (·.1)

/-! ## Claims C1–C5 -/

/-- Epoch seconds of 2020-01-01T00:00:00Z. -/
def epoch20200101Z : Nat := 1577836800

/-- Epoch seconds of 2020-01-01T00:00:00 at UTC offset +01:00
(= 2019-12-31T23:00:00Z), the local reading of the naive
`datetime.datetime(2020, 1, 1)` used by the repository's test. -/
def epoch20200101utc1 : Nat := 1577833200

/-- The generator of the `test_generation` scenario:
`SiqGen('0', shard_id=256)` followed by `set_cur_timestamp` at the given
epoch second.  (`pid` and the construction-time wall reading are
irrelevant here: domain `'0'` hashes to 0, `shard_id=256` is truthy so
`os.getpid()` is unused, and `set_cur_timestamp` overwrites
`last_gen_ts`.) -/
def testGen (seconds : Nat) : SiqGenState :=
  setCurTimestamp (SiqGen.init ['0'] 0 none (some 256) 0 0) seconds

/-- **C1, counterexample.**  With the clock frozen at
2020-01-01T00:00:00Z (epoch 1577836800), the first generated CONTENT
identifier is `1577836800 * 2^72 + 7 = 7451123619758295821113412812807`,
not the `7451106619238957490390643507207` the claim states (that value
corresponds to 2020-01-01T00:00:00+01:00, the timezone in which the
repository's test was recorded). -/
theorem C1_counterexample :
    generateList (testGen epoch20200101Z) SiqType.CONTENT 1 (fun _ => 0) 1 =
      some [7451123619758295821113412812807] ∧
    (7451123619758295821113412812807 : Nat) ≠ 7451106619238957490390643507207 := by
  exact ⟨by decide, by decide⟩

/-- **C1, amended.**  With domain `"0"`, shard override 256 and the
clock frozen at 2020-01-01T00:00:00+01:00 (epoch second 1577833200, as
in the repository's test environment), the first generated CONTENT
identifier equals 7451106619238957490390643507207, and the 15 further
CONTENT identifiers generated under the same frozen clock each exceed
the previous one by 8, the 15th subsequent one equalling the first plus
120. -/
theorem C1_amended :
    ((generate (testGen epoch20200101utc1) SiqType.CONTENT 1 (fun _ => 0) 1).bind fun r =>
      (generateList r.2 SiqType.CONTENT 15 (fun _ => 0) 1).map fun l => (r.1, l)) =
    some ([7451106619238957490390643507207],
      (List.range 15).map fun k => 7451106619238957490390643507207 + 8 * (k + 1)) := by
  decide

/-- **C2, the code at the failing input.**  A freshly constructed
production generator (`SiqGen('0', shard_id=256)`, no test override) has
`last_gen_ts = min(0 >> 56, wall) = 0`, and `generate` never updates
`last_gen_ts`; hence under a frozen wall clock (here 65536 ticks = 1 s
after the epoch) every `generate(CONTENT, 1)` call takes the
`now > last_gen_ts` branch, resets the counter to 0, and returns the
very same identifier `65536 * 2^56 + 7` again — not a value exactly
`2^n_bits = 8` larger as the claim requires. -/
theorem C2_code_bug_eval :
    ((generate (SiqGen.init ['0'] 0 none (some 256) 0 65536) SiqType.CONTENT 1
        (fun _ => 65536) 1).bind fun r =>
      (generateList r.2 SiqType.CONTENT 1 (fun _ => 65536) 1).map fun l => (r.1, l)) =
    some ([4722366482869645213703], [4722366482869645213703]) := by
  decide

/-- **C3, the code at the failing input.**  `generate` never writes
`last_gen_ts`, so a fresh generator keeps `last_gen_ts = 0`; a wall
clock reading 131072 on the first call and 65536 (a regression) on the
second takes the `now > last_gen_ts` branch both times — no sleep
happens and the second emitted identifier's 56-bit timestamp field,
65536, is smaller than the earlier emission's 131072. -/
theorem C3_code_bug_eval :
    ((generate (SiqGen.init ['0'] 0 none (some 256) 0 131072) SiqType.CONTENT 1
        (fun _ => 131072) 1).bind fun r =>
      (generateList r.2 SiqType.CONTENT 1 (fun _ => 65536) 1).map fun l =>
        (r.1.map (· >>> 56), l.map (· >>> 56))) =
    some ([131072], [65536]) ∧ (65536 : Nat) < 131072 := by
  exact ⟨by decide, by decide⟩

/-- **C4, the code at the failing input.**  Resuming from a previously
emitted identifier `x = 131072 * 2^56 + 7` while the wall clock reads
65536 sets `last_gen_ts = min(x >> 56, 65536) = 65536` (the source
takes `min`, not `max`), and the generator immediately emits an
identifier whose timestamp field 65536 is **below** `x`'s timestamp
field 131072 — the resume parameter does not enforce monotonicity
across restarts. -/
theorem C4_code_bug_eval :
    (generateList (SiqGen.init ['0'] ((131072 <<< 56) + 7) none (some 256) 0 65536)
        SiqType.CONTENT 1 (fun _ => 65536) 1).map (·.map (· >>> 56)) =
      some [65536] ∧
    ((131072 <<< 56) + 7 : Nat) >>> 56 = 131072 ∧ (65536 : Nat) < 131072 := by
  refine ⟨by decide, by decide, by decide⟩

/-- The length of the low-order run of 1-bits of `v` — the claim C5's
reading of "tag width": the smallest `n` such that bit `n` of the code
is 0.  (Spec-side definition, for comparison with the source's
`n_bits`.) -/
def lowOnesGo : Nat → Nat → Nat
  | 0, _ => 0
  | fuel + 1, v => if v % 2 = 1 then lowOnesGo fuel (v / 2) + 1 else 0

def lowOnesRun (v : Nat) : Nat := lowOnesGo (v + 1) v

/-- **C5, counterexample.**  For `CONTENT` (code 15 = 0b1111) the
low-order run of 1-bits has length 4, but the source's `n_bits` is 3
(the index of the highest set bit): the code's tag width is *not* the
claimed run of low 1-bits, and leaf types have width 3, not 4. -/
theorem C5_counterexample :
    SiqType.CONTENT.n_bits = 3 ∧ lowOnesRun SiqType.CONTENT.value = 4 ∧
      (3 : Nat) ≠ 4 := by
  exact ⟨by decide, by decide, by decide⟩

/-- The tag widths the code actually assigns: 3 for the leaf types,
4 for `THREAD`/`MESSAGE`, 5 for the remaining structural types. -/
def tagWidthSpec : SiqType → Nat
  | .CONTENT | .MULTI | .MANYTOMANY | .TERNARY => 3
  | .THREAD | .MESSAGE => 4
  | _ => 5

/-- **C5, amended.**  For every `SiqType` code, the tag width `n_bits`
equals the index of the code's highest set bit (so leaf types have tag
width 3 and structural types 4 to 5), and `prepend(c)` returns the tag
pattern (`value mod 2^n_bits`) in the `n_bits` low bits with `c` shifted
left by `n_bits` bits. -/
theorem C5_amended :
    (∀ t : SiqType, t.n_bits = tagWidthSpec t) ∧
    (∀ t : SiqType, 2 ^ t.n_bits ≤ t.value ∧ t.value < 2 ^ (t.n_bits + 1)) ∧
    (∀ t : SiqType, ∀ c : Nat,
      t.prepend c = c * 2 ^ t.n_bits + t.value % 2 ^ t.n_bits) := by
  refine ⟨fun t => by cases t <;> decide, fun t => by cases t <;> exact ⟨by decide, by decide⟩,
    fun t c => ?_⟩
  have h : t.value % (1 <<< t.n_bits) < 2 ^ t.n_bits := by
    rw [Nat.shiftLeft_eq, Nat.one_mul]
    exact Nat.mod_lt _ (Nat.pos_pow_of_pos _ (by norm_num))
  rw [SiqType.prepend, Nat.shiftLeft_eq, Nat.mul_comm c, ← Nat.mul_add_lt_is_or h,
    Nat.shiftLeft_eq, Nat.one_mul, Nat.mul_comm]

/-! ## `suou.bits`

`mask_shift` and `count_ones` from `src/suou/bits.py`.  Python integers
are `Int` (arbitrary precision, two's-complement bitwise semantics,
floor shifts), matching Mathlib's `Int.land`/`Int.lor`/`Int.lnot` and
the `Int` shift instances. -/

theorem one_shiftLeft_coe (j : Nat) : (1 : Int) <<< (j : Int) = ((2 ^ j : Nat) : Int) := by
  show ((1 : Nat) : Int) <<< ((j : Nat) : Int) = _
  rw [Int.shiftLeft_coe_nat]
  simp [Nat.shiftLeft_eq]

/-- A `Nat` AND with a single bit is that bit or zero. -/
theorem nat_and_two_pow (n j : Nat) :
    n &&& 2 ^ j = if Nat.testBit n j then 2 ^ j else 0 := by
  apply Nat.eq_of_testBit_eq
  intro k
  rw [Nat.testBit_and, Nat.testBit_two_pow]
  by_cases hk : j = k
  · subst hk
    cases hb : Nat.testBit n j <;> simp [hb, Nat.testBit_two_pow]
  · cases hb : Nat.testBit n j <;> simp [hb, Nat.testBit_two_pow, Ne.symm hk, hk]

theorem nat_ldiff_two_pow (n j : Nat) :
    Nat.ldiff (2 ^ j) n = if Nat.testBit n j then 0 else 2 ^ j := by
  apply Nat.eq_of_testBit_eq
  intro k
  rw [Nat.testBit_ldiff, Nat.testBit_two_pow]
  by_cases hk : j = k
  · subst hk
    cases hb : Nat.testBit n j <;> simp [hb, Nat.zero_testBit, Nat.testBit_two_pow]
  · cases hb : Nat.testBit n j <;>
      simp [hb, hk, Nat.zero_testBit, Nat.testBit_two_pow, Ne.symm hk]

/-- `Int.testBit m j` decides the Python condition `m & (1 << j) != 0`. -/
theorem land_one_shiftLeft (m : Int) (j : Nat) :
    Int.land m ((1 : Int) <<< (j : Int)) =
      if m.testBit j then ((1 : Int) <<< (j : Int)) else 0 := by
  rw [one_shiftLeft_coe]
  cases m with
  | ofNat n =>
    show ((n &&& 2 ^ j : Nat) : Int) = if Nat.testBit n j then _ else _
    rw [nat_and_two_pow]
    split <;> simp
  | negSucc n =>
    show ((Nat.ldiff (2 ^ j) n : Nat) : Int) = if !(Nat.testBit n j) then _ else _
    rw [nat_ldiff_two_pow]
    cases hb : Nat.testBit n j <;> simp [hb]

theorem land_one_shiftLeft_eq_zero (m : Int) (j : Nat) :
    (Int.land m ((1 : Int) <<< (j : Int)) = 0) ↔ m.testBit j = false := by
  rw [land_one_shiftLeft]
  cases h : m.testBit j
  · simp
  · simp [one_shiftLeft_coe, pow_ne_zero]

/-- `Int` shift-right moves test bits (arithmetic shift, as Python's `>>`). -/
theorem int_testBit_shiftRight (m : Int) (k j : Nat) :
    (m >>> (k : Int)).testBit j = m.testBit (k + j) := by
  cases m with
  | ofNat n =>
    have h : (Int.ofNat n) >>> ((k : Nat) : Int) = Int.ofNat (n >>> k) :=
      Int.shiftRight_coe_nat n k
    rw [h]
    simp [Int.testBit, Nat.testBit_shiftRight]
  | negSucc n =>
    rw [Int.shiftRight_negSucc]
    simp [Int.testBit, Nat.testBit_shiftRight]

/-- The least set bit of a nonzero `Int` exists, below `natAbs + 1`. -/
theorem exists_testBit_of_ne_zero (m : Int) (h : m ≠ 0) :
    ∃ j, j ≤ m.natAbs ∧ m.testBit j = true := by
  cases m with
  | ofNat n =>
    have hn : n ≠ 0 := by simpa using h
    obtain ⟨i, hi, -⟩ := Nat.exists_most_significant_bit hn
    refine ⟨i, ?_, hi⟩
    have := Nat.testBit_implies_ge hi
    have h2 : i < 2 ^ i := Nat.lt_two_pow i
    show i ≤ n
    omega
  | negSucc n =>
    refine ⟨n, ?_, ?_⟩
    · rw [Int.natAbs_negSucc]
      omega
    · have : Nat.testBit n n = false := Nat.testBit_lt_two_pow (Nat.lt_two_pow n)
      simp [Int.testBit, this]

/-- The loop `i = 0; while mask & (1 << i) == 0: i += 1` of `mask_shift`.
`fuel` bounds the iterations; `tzLoop` passes `natAbs mask + 1`, which
`tzLoop_spec` proves sufficient for every `mask ≠ 0`. -/
def tzGo (mask : Int) : Nat → Nat → Nat
  | i, 0 => i
  | i, fuel + 1 =>
    if Int.land mask ((1 : Int) <<< (i : Int)) = 0 then tzGo mask (i + 1) fuel else i

def tzLoop (mask : Int) : Nat := tzGo mask 0 (mask.natAbs + 1)

theorem tzGo_eq (mask : Int) (L : Nat) (hL : mask.testBit L = true)
    (hmin : ∀ j < L, mask.testBit j = false) :
    ∀ fuel i, i ≤ L → L < i + fuel → tzGo mask i fuel = L := by
  intro fuel
  induction fuel with
  | zero => intro i h1 h2; omega
  | succ fuel ih =>
    intro i h1 h2
    simp only [tzGo]
    split
    · next hc =>
      have hbit : mask.testBit i = false := (land_one_shiftLeft_eq_zero mask i).mp hc
      have hne : i ≠ L := fun he => by rw [he, hL] at hbit; cases hbit
      exact ih (i + 1) (by omega) (by omega)
    · next hc =>
      have hbit : mask.testBit i = true := by
        rcases hb : mask.testBit i with _ | _
        · exact absurd ((land_one_shiftLeft_eq_zero mask i).mpr hb) hc
        · rfl
      by_contra hne
      exact absurd (hmin i (by omega)) (by rw [hbit]; simp)

/-- For `mask ≠ 0` the trailing-zero loop returns the least set-bit
index: every lower bit of `mask` is clear and bit `tzLoop mask` is set. -/
theorem tzLoop_spec (mask : Int) (h : mask ≠ 0) :
    mask.testBit (tzLoop mask) = true ∧ ∀ j < tzLoop mask, mask.testBit j = false := by
  obtain ⟨j0, hj0, hbit0⟩ := exists_testBit_of_ne_zero mask h
  have hex : ∃ j, mask.testBit j = true := ⟨j0, hbit0⟩
  set L := Nat.find hex with hLdef
  have hL : mask.testBit L = true := Nat.find_spec hex
  have hmin : ∀ j < L, mask.testBit j = false := by
    intro j hj
    rcases hb : mask.testBit j with _ | _
    · rfl
    · exact absurd hb (Nat.find_min hex hj)
  have hbound : L ≤ j0 := Nat.find_min' hex hbit0
  have : tzLoop mask = L :=
    tzGo_eq mask L hL hmin (mask.natAbs + 1) 0 (by omega) (by omega)
  rw [this]
  exact ⟨hL, hmin⟩

/-- The loop `o = 0; while mask & (1 << o) == 1: o += 1` of `mask_shift`.
The loop condition compares with the *literal* `1`: for `o ≥ 1` the
value `mask & (1 << o)` is either `0` or `2^o ≠ 1`, so the loop never
runs past `o = 1` and fuel 2 is exact (`onesLoop_eq`). -/
def onesGo (mask : Int) : Nat → Nat → Nat
  | o, 0 => o
  | o, fuel + 1 =>
    if Int.land mask ((1 : Int) <<< (o : Int)) = 1 then onesGo mask (o + 1) fuel else o

def onesLoop (mask : Int) : Nat := onesGo mask 0 2

theorem land_one_shiftLeft_eq_one (m : Int) (o : Nat) :
    (Int.land m ((1 : Int) <<< (o : Int)) = 1) ↔ (o = 0 ∧ m.testBit 0 = true) := by
  rw [land_one_shiftLeft]
  cases h : m.testBit o with
  | false =>
    rw [if_neg (by simp)]
    constructor
    · intro h1
      exact absurd h1 (by norm_num)
    · rintro ⟨rfl, h0⟩
      rw [h0] at h
      cases h
  | true =>
    rw [if_pos rfl, one_shiftLeft_coe]
    constructor
    · intro h1
      have h2 : (2 : Nat) ^ o = 1 := by exact_mod_cast h1
      have ho : o = 0 := by
        by_contra hne
        have : 2 ≤ 2 ^ o := Nat.one_lt_two_pow_iff.mpr hne
        omega
      subst ho
      exact ⟨rfl, h⟩
    · rintro ⟨rfl, -⟩
      norm_num

theorem onesLoop_eq (m : Int) : onesLoop m = if m.testBit 0 then 1 else 0 := by
  unfold onesLoop
  show onesGo m 0 2 = _
  simp only [onesGo]
  by_cases h : m.testBit 0 = true
  · rw [if_pos ((land_one_shiftLeft_eq_one m 0).mpr ⟨rfl, h⟩)]
    rw [if_neg (fun hc => by simpa using ((land_one_shiftLeft_eq_one m 1).mp hc).1)]
    simp [h]
  · rw [if_neg (fun hc => h ((land_one_shiftLeft_eq_one m 0).mp hc).2)]
    simp only [Bool.not_eq_true] at h
    simp [h]

/-- Measure for `mask_shift`'s recursion on its `mask` argument. -/
def intMeasure (m : Int) : Nat := (if 0 ≤ m then m else -1 - m).toNat

theorem intMeasure_ofNat (x : Nat) : intMeasure (Int.ofNat x) = x := by
  unfold intMeasure
  rw [show Int.ofNat x = (x : Int) from rfl, if_pos (by omega)]
  omega

theorem intMeasure_negSucc (x : Nat) : intMeasure (Int.negSucc x) = x := by
  unfold intMeasure
  rw [Int.negSucc_eq, if_neg (by omega)]
  omega

theorem intMeasure_shiftRight_lt (m : Int) (k : Nat) (h0 : m ≠ 0) (h1 : m ≠ -1)
    (hk : 1 ≤ k) : intMeasure (m >>> (k : Int)) < intMeasure m := by
  have hdiv : ∀ x : Nat, x ≠ 0 → x >>> k < x := by
    intro x hx
    rw [Nat.shiftRight_eq_div_pow]
    apply Nat.div_lt_self (by omega)
    have : (2 : Nat) ^ 1 ≤ 2 ^ k := Nat.pow_le_pow_right (by omega) hk
    omega
  cases m with
  | ofNat x =>
    have hco : (Int.ofNat x) >>> ((k : Nat) : Int) = Int.ofNat (x >>> k) :=
      Int.shiftRight_coe_nat x k
    rw [hco, intMeasure_ofNat, intMeasure_ofNat]
    refine hdiv x (fun he => h0 ?_)
    rw [he]
    rfl
  | negSucc x =>
    rw [Int.shiftRight_negSucc, intMeasure_negSucc, intMeasure_negSucc]
    refine hdiv x (fun he => h1 ?_)
    rw [he]
    rfl

/-- `mask_shift(n, mask)` from `src/suou/bits.py`:
select the bits of `n` chosen by `mask`, least significant first. -/
def maskShift (n mask : Int) : Int :=
  if hm0 : mask = 0 then 0
  else if hm1 : mask = -1 then n
  else
    let i := tzLoop mask
    let n1 := n >>> (i : Int)
    let m1 := mask >>> (i : Int)
    let o := onesLoop m1
    -- (n & ((1 << o) - 1)) | (mask_shift(n >> o, mask >> o) << o)
    Int.lor (Int.land n1 ((1 : Int) <<< (o : Int) - 1))
      ((maskShift (n1 >>> (o : Int)) (m1 >>> (o : Int))) <<< (o : Int))
termination_by intMeasure mask
decreasing_by
  have hbit := (tzLoop_spec mask hm0).1
  have h0 : (mask >>> ((tzLoop mask : Nat) : Int)).testBit 0 = true := by
    rw [int_testBit_shiftRight]
    simpa using hbit
  have ho : onesLoop (mask >>> ((tzLoop mask : Nat) : Int)) = 1 := by
    simp [onesLoop_eq, h0]
  simp only [ho]
  have hcomb : (mask >>> ((tzLoop mask : Nat) : Int)) >>> ((1 : Nat) : Int) =
      mask >>> ((tzLoop mask + 1 : Nat) : Int) := by
    rw [← Int.shiftRight_add']
    norm_cast
  rw [hcomb]
  exact intMeasure_shiftRight_lt mask _ hm0 hm1 (by omega)

/-- `count_ones`'s loop for a nonnegative argument:
`while n not in (-1, 0): ones += n & 1; n >>= 1`.  Fuel-structural,
with fuel `n` (sufficient as `n` halves; `countLoop_eq` certifies the
recurrence). -/
def countGo : Nat → Nat → Nat
  | 0, _ => 0
  | fuel + 1, n => if n = 0 then 0 else n % 2 + countGo fuel (n / 2)

def countLoop (n : Nat) : Nat := countGo n n

theorem countGo_fuel (fuel fuel' n : Nat) (h : n ≤ fuel) (h' : n ≤ fuel') :
    countGo fuel n = countGo fuel' n := by
  induction fuel generalizing fuel' n with
  | zero =>
    have : n = 0 := by omega
    subst this
    cases fuel' with
    | zero => rfl
    | succ f => simp [countGo]
  | succ f ih =>
    cases fuel' with
    | zero =>
      have : n = 0 := by omega
      subst this
      simp [countGo]
    | succ f' =>
      simp only [countGo]
      split
      · rfl
      · next hn => rw [ih f' (n / 2) (by omega) (by omega)]

theorem countLoop_eq (n : Nat) :
    countLoop n = if n = 0 then 0 else n % 2 + countLoop (n / 2) := by
  unfold countLoop
  rcases n with _ | m
  · simp [countGo]
  · simp only [countGo]
    rw [if_neg (by omega)]
    rw [if_neg (by omega)]
    congr 1
    exact countGo_fuel m ((m + 1) / 2) ((m + 1) / 2) (by omega) (by omega)

/-- `count_ones(n)` from `src/suou/bits.py`: for `n < 0` the source
returns `~count_ones(~n)`; since `~n ≥ 0` there, the inner call is the
counting loop. -/
def count_ones (n : Int) : Int :=
  if h : n < 0 then Int.lnot (count_ones (Int.lnot n)) else (countLoop n.toNat : Int)
termination_by (if n < 0 then 1 else 0 : Nat)
decreasing_by
  rw [if_pos h]
  rcases n with x | x
  · rw [show Int.ofNat x = (x : Int) from rfl] at h
    omega
  · rw [show Int.lnot (Int.negSucc x) = (x : Int) from rfl, if_neg (by omega)]
    omega

/-- Spec-side definition for C8, following the spec's words: the bits
of `n` selected by `mask`, right-justified and compacted, walking the
bit positions from least significant upwards (so non-contiguous mask
groups are concatenated in low-to-high order). -/
def compactBits (n : Nat) (mask : Int) : Nat :=
  if hn : n = 0 then 0
  else if mask.testBit 0 then n % 2 + 2 * compactBits (n / 2) (mask >>> (1 : Int))
  else compactBits (n / 2) (mask >>> (1 : Int))
termination_by n
decreasing_by
  all_goals exact Nat.div_lt_self (Nat.pos_of_ne_zero hn) (by omega)

theorem compactBits_zero (mask : Int) : compactBits 0 mask = 0 := by
  rw [compactBits]
  simp

theorem compactBits_skip (n : Nat) (mask : Int) (h : mask.testBit 0 = false) :
    compactBits n mask = compactBits (n / 2) (mask >>> (1 : Int)) := by
  rcases Nat.eq_zero_or_pos n with hn | hn
  · subst hn
    rw [compactBits_zero, Nat.zero_div, compactBits_zero]
  · rw [compactBits, dif_neg (by omega), if_neg (by simp [h])]

theorem compactBits_odd (n : Nat) (mask : Int) (h : mask.testBit 0 = true) :
    compactBits n mask = n % 2 + 2 * compactBits (n / 2) (mask >>> (1 : Int)) := by
  rcases Nat.eq_zero_or_pos n with hn | hn
  · subst hn
    rw [compactBits_zero, Nat.zero_div, compactBits_zero]
  · rw [compactBits, dif_neg (by omega), if_pos h]

theorem int_shiftRight_zero (m : Int) : m >>> ((0 : Nat) : Int) = m := by
  cases m <;> rfl

theorem compactBits_skip_many (i : Nat) :
    ∀ (n : Nat) (mask : Int), (∀ j < i, mask.testBit j = false) →
    compactBits n mask = compactBits (n >>> i) (mask >>> (i : Int)) := by
  induction i with
  | zero =>
    intro n mask _
    rw [Nat.shiftRight_zero, int_shiftRight_zero]
  | succ i ih =>
    intro n mask h
    rw [compactBits_skip n mask (h 0 (by omega))]
    rw [ih (n / 2) (mask >>> (1 : Int)) (fun j hj => by
      have hsh := int_testBit_shiftRight mask 1 j
      rw [show (mask >>> (((1 : Nat)) : Int)) = (mask >>> (1 : Int)) from rfl] at hsh
      rw [hsh]
      exact h (1 + j) (by omega))]
    congr 1
    · rw [← Nat.shiftRight_one, ← Nat.shiftRight_add]
      congr 1
      omega
    · rw [show (mask >>> (1 : Int)) = (mask >>> (((1 : Nat)) : Int)) from rfl,
        ← Int.shiftRight_add']
      norm_cast
      rw [Nat.add_comm]

theorem int_land_coe (a b : Nat) :
    Int.land ((a : Nat) : Int) ((b : Nat) : Int) = ((a &&& b : Nat) : Int) := rfl

theorem int_lor_coe (a b : Nat) :
    Int.lor ((a : Nat) : Int) ((b : Nat) : Int) = ((a ||| b : Nat) : Int) := rfl

theorem maskShift_zero_mask (n : Int) : maskShift n 0 = 0 := by
  rw [maskShift]
  simp

theorem maskShift_neg_one (n : Int) : maskShift n (-1) = n := by
  rw [maskShift]
  norm_num

theorem compactBits_zero_mask (n : Nat) : compactBits n 0 = 0 := by
  induction n using Nat.strong_induction_on with
  | _ n ihn =>
    rcases Nat.eq_zero_or_pos n with hn | hn
    · subst hn
      exact compactBits_zero 0
    · rw [compactBits_skip n 0 (by rfl), show (0 : Int) >>> (1 : Int) = 0 from rfl]
      exact ihn (n / 2) (Nat.div_lt_self hn (by omega))

theorem compactBits_neg_one (n : Nat) : compactBits n (-1) = n := by
  induction n using Nat.strong_induction_on with
  | _ n ihn =>
    rcases Nat.eq_zero_or_pos n with hn | hn
    · subst hn
      exact compactBits_zero (-1)
    · rw [compactBits_odd n (-1) (by rfl), show (-1 : Int) >>> (1 : Int) = -1 from rfl]
      rw [ihn (n / 2) (Nat.div_lt_self hn (by omega))]
      omega

/-- `mask_shift` computes the compacted selection, for every
nonnegative `n` and every (possibly negative) `mask`. -/
theorem maskShift_eq_compactBits_aux :
    ∀ (μ : Nat) (mask : Int), intMeasure mask ≤ μ →
      ∀ (n : Nat), maskShift (n : Int) mask = (compactBits n mask : Int) := by
  intro μ
  induction μ with
  | zero =>
    intro mask hμ n
    have h0 : mask = 0 ∨ mask = -1 := by
      unfold intMeasure at hμ
      split at hμ <;> omega
    rcases h0 with rfl | rfl
    · rw [maskShift_zero_mask, compactBits_zero_mask]
      rfl
    · rw [maskShift_neg_one, compactBits_neg_one]
  | succ μ ih =>
    intro mask hμ n
    by_cases hm0 : mask = 0
    · subst hm0
      rw [maskShift_zero_mask, compactBits_zero_mask]
      rfl
    by_cases hm1 : mask = -1
    · subst hm1
      rw [maskShift_neg_one, compactBits_neg_one]
    -- the recursive branch
    have htz := tzLoop_spec mask hm0
    set i := tzLoop mask with hidef
    have hbit1 : (mask >>> (i : Int)).testBit 0 = true := by
      rw [int_testBit_shiftRight]
      simpa using htz.1
    have ho : onesLoop (mask >>> (i : Int)) = 1 := by
      simp [onesLoop_eq, hbit1]
    have hm2 : mask >>> ((i : Nat) : Int) >>> ((1 : Nat) : Int) =
        mask >>> ((i + 1 : Nat) : Int) := by
      rw [← Int.shiftRight_add']
      norm_cast
    have hmeas : intMeasure (mask >>> ((i + 1 : Nat) : Int)) ≤ μ := by
      have := intMeasure_shiftRight_lt mask (i + 1) hm0 hm1 (by omega)
      omega
    rw [maskShift]
    simp only [dif_neg hm0, dif_neg hm1, ← hidef, ho]
    have hn1 : (n : Int) >>> ((i : Nat) : Int) = ((n >>> i : Nat) : Int) :=
      Int.shiftRight_coe_nat n i
    have hn2 : ((n >>> i : Nat) : Int) >>> ((1 : Nat) : Int) =
        ((n >>> i >>> 1 : Nat) : Int) := Int.shiftRight_coe_nat (n >>> i) 1
    rw [hn1, hn2, hm2]
    rw [ih (mask >>> ((i + 1 : Nat) : Int)) hmeas (n >>> i >>> 1)]
    -- both sides are now castable Nat computations
    have hc1 : ((1 : Int) <<< ((1 : Nat) : Int)) - 1 = ((1 : Nat) : Int) := by
      rw [one_shiftLeft_coe]
      norm_num
    rw [hc1, int_land_coe]
    have hc2 : ((compactBits (n >>> i >>> 1) (mask >>> ((i + 1 : Nat) : Int)) : Nat) : Int) <<<
        ((1 : Nat) : Int) =
        ((compactBits (n >>> i >>> 1) (mask >>> ((i + 1 : Nat) : Int)) <<< 1 : Nat) : Int) :=
      Int.shiftLeft_coe_nat _ 1
    rw [hc2, int_lor_coe]
    -- compact the right-hand side
    rw [compactBits_skip_many i n mask htz.2]
    rw [compactBits_odd (n >>> i) (mask >>> (i : Int)) hbit1]
    rw [show (mask >>> ((i : Nat) : Int)) >>> ((1 : Int)) = mask >>> ((i + 1 : Nat) : Int) from hm2]
    -- now a pure Nat identity
    norm_cast
    rw [Nat.and_one_is_mod]
    set a := n >>> i with hadef
    set c := compactBits (a >>> 1) (mask >>> ((i + 1 : Nat) : Int)) with hcdef
    have h1 : c <<< 1 = 2 ^ 1 * c := by
      rw [Nat.shiftLeft_eq]
      ring
    have h2 : a % 2 < 2 ^ 1 := by
      have := Nat.mod_lt a (show 0 < 2 by omega)
      simpa using this
    rw [h1, Nat.lor_comm, ← Nat.mul_add_lt_is_or h2]
    have h3 : a >>> 1 = a / 2 := Nat.shiftRight_one a
    rw [h3] at hcdef
    omega

/-- Two's-complement negation: `~x = -x - 1`. -/
theorem int_lnot_eq (x : Int) : Int.lnot x = -x - 1 := by
  cases x with
  | ofNat m =>
    rw [show Int.lnot (Int.ofNat m) = Int.negSucc m from rfl, Int.negSucc_eq,
      show Int.ofNat m = (m : Int) from rfl]
    ring
  | negSucc m =>
    rw [show Int.lnot (Int.negSucc m) = (m : Int) from rfl, Int.negSucc_eq]
    ring

/-- **C8.**  `mask_shift(n, mask)` returns the bits of `n` selected by
`mask`, right-justified and compacted with the mask's bit groups
concatenated in low-to-high order (formalised by `compactBits`), for
every non-negative `n` and every integer `mask`; and for every integer
`n`, `mask_shift(n, -1) = n` and `mask_shift(n, 0) = 0`. -/
theorem C8_mask_shift :
    (∀ (n : Nat) (mask : Int), maskShift (n : Int) mask = (compactBits n mask : Int)) ∧
    (∀ n : Int, maskShift n (-1) = n) ∧ (∀ n : Int, maskShift n 0 = 0) :=
  ⟨fun n mask => maskShift_eq_compactBits_aux (intMeasure mask) mask (Nat.le_refl _) n,
    maskShift_neg_one, maskShift_zero_mask⟩

/-- **C9, counterexample.**  `count_ones(-2)` evaluates to `-2` — the
bit-complement `~1` of the population count 1 of `~(-2) = 1` — while
the number of zero bits of `-2` (binary `…11110`) is `1`; the returned
value is not that count. -/
theorem C9_counterexample :
    count_ones (-2) = -2 ∧ countLoop (Int.lnot (-2)).toNat = 1 ∧
      ((-2 : Int) ≠ (1 : Int)) := by
  refine ⟨?_, by decide, by decide⟩
  rw [count_ones, dif_pos (by norm_num)]
  rw [show Int.lnot (-2) = (1 : Int) from rfl]
  rw [count_ones, dif_neg (by norm_num)]
  rfl

/-- **C9, amended.**  For every negative integer `n`, `count_ones(n)`
returns the bit-complement of the population count of the bitwise
complement of `n`; this value is `-k - 1` where `k` is the number of
zero bits of `n` (the population count of `~n`), not `k` itself. -/
theorem C9_amended (n : Int) (h : n < 0) :
    count_ones n = Int.lnot (countLoop (Int.lnot n).toNat) ∧
    count_ones n = -(countLoop (Int.lnot n).toNat : Int) - 1 := by
  have hpos : ¬(Int.lnot n < 0) := by
    rw [int_lnot_eq]
    omega
  have h1 : count_ones n = Int.lnot (countLoop (Int.lnot n).toNat) := by
    rw [count_ones, dif_pos h]
    rw [count_ones, dif_neg hpos]
  exact ⟨h1, by rw [h1, int_lnot_eq]⟩

theorem C9_amended_witness :
    ((-3 : Int) < 0) ∧
    (count_ones (-3) = Int.lnot (countLoop (Int.lnot (-3)).toNat) ∧
      count_ones (-3) = -(countLoop (Int.lnot (-3)).toNat : Int) - 1) :=
  ⟨by norm_num, C9_amended (-3) (by norm_num)⟩

/-! ## `suou.codecs` — base-32 codecs

Text strings are `List Char`.  `base64.b32encode`/`b32decode` are
CPython's RFC 4648 base-32 (modelled from the spec; they are standard
library code, not part of this repository), processing 5-byte groups as
40-bit integers split into eight 5-bit digits. -/

def b32Alphabet : List Char :=
  ['A', 'B', 'C', 'D', 'E', 'F', 'G', 'H', 'I', 'J', 'K', 'L', 'M', 'N', 'O', 'P',
   'Q', 'R', 'S', 'T', 'U', 'V', 'W', 'X', 'Y', 'Z', '2', '3', '4', '5', '6', '7']

/-- The Crockford alphabet (`B32_TO_CROCKFORD`'s image). -/
def crockAlphabet : List Char :=
  ['0', '1', '2', '3', '4', '5', '6', '7', '8', '9', 'A', 'B', 'C', 'D', 'E', 'F',
   'G', 'H', 'J', 'K', 'M', 'N', 'P', 'Q', 'R', 'S', 'T', 'V', 'W', 'X', 'Y', 'Z']

/-- `str.translate` with a `str.maketrans(src, dst, del)` table:
characters of `del` are removed, the i-th character of `src` becomes
the i-th of `dst`, all others pass through. -/
def translateChar (src dst del : List Char) (c : Char) : Option Char :=
  if c ∈ del then none
  else match src.findIdx? (· = c) with
    | some i => some (dst.getD i c)
    | none => some c

def translate (src dst del : List Char) (s : List Char) : List Char :=
  s.filterMap (translateChar src dst del)

def asciiLower (c : Char) : Char :=
  if 'A' ≤ c ∧ c ≤ 'Z' then Char.ofNat (c.toNat + 32) else c

def asciiUpper (c : Char) : Char :=
  if 'a' ≤ c ∧ c ≤ 'z' then Char.ofNat (c.toNat - 32) else c

def b32Char (d : Nat) : Char := b32Alphabet.getD d 'A'

def b32DigitOf (c : Char) : Option Nat := b32Alphabet.findIdx? (· = c)

/-- Decode each character through `digitOf`, failing on the first
unknown character (the per-character lookup loop of the decoders). -/
def charsToDigits (digitOf : Char → Option Nat) : List Char → Option (List Nat)
  | [] => some []
  | c :: cs =>
    match digitOf c, charsToDigits digitOf cs with
    | some d, some ds => some (d :: ds)
    | _, _ => none

/-- RFC 4648 base-32 encoding of a byte string (`base64.b32encode`):
5-byte groups become 8 alphabet characters; a final partial group is
zero-padded and the surplus characters replaced by `'='`. -/
def b32encode : List Nat → List Char
  | [] => []
  | b :: bs =>
    if h5 : 5 ≤ (b :: bs).length then
      (digitsBE 32 8 (fromDigitsBE 256 ((b :: bs).take 5))).map b32Char ++
        b32encode ((b :: bs).drop 5)
    else
      let nEq := [0, 6, 4, 3, 1].getD (b :: bs).length 0
      ((digitsBE 32 8 (fromDigitsBE 256
          ((b :: bs) ++ List.replicate (5 - (b :: bs).length) 0))).map b32Char).take (8 - nEq) ++
        List.replicate nEq '='
termination_by bs => bs.length
decreasing_by
  simp only [List.length_drop, List.length_cons]
  omega

/-- RFC 4648 base-32 decoding (`base64.b32decode`): 8-character groups
of alphabet characters, `'='` padding allowed only at the very end.
`none` models `binascii.Error`. -/
def b32decodeCore : List Char → Option (List Nat)
  | [] => some []
  | c :: s =>
    let c8 := (c :: s).take 8
    let rest := (c :: s).drop 8
    let body := c8.takeWhile (· ≠ '=')
    if (c8.drop body.length).any (· ≠ '=') then none
    else if rest ≠ [] ∧ body.length ≠ 8 then none
    else
      match charsToDigits b32DigitOf body with
      | none => none
      | some ds =>
        let nBytes : Option Nat :=
          match 8 - body.length with
          | 0 => some 5
          | 1 => some 4
          | 3 => some 3
          | 4 => some 2
          | 6 => some 1
          | _ => none
        match nBytes with
        | none => none
        | some nb =>
          let v := fromDigitsBE 32 (ds ++ List.replicate (8 - body.length) 0)
          (b32decodeCore rest).map fun out => (digitsBE 256 5 v).take nb ++ out
termination_by s => s.length
decreasing_by
  simp only [List.length_drop, List.length_cons]
  omega

def b32decode (s : List Char) : Option (List Nat) :=
  if s.length % 8 ≠ 0 then none else b32decodeCore s

/-- Strip trailing `'='` characters (`.rstrip('=')`). -/
def rstripEq (s : List Char) : List Char := (s.reverse.dropWhile (· = '=')).reverse

/-- `b32lencode` from `src/suou/codecs.py`: lowercase base-32 with the
trailing `'='` stripped. -/
def b32lencode (bs : List Nat) : List Char := (rstripEq (b32encode bs)).map asciiLower

/-- `cb32encode`: base-32, then translate to the Crockford alphabet. -/
def cb32encode (bs : List Nat) : List Char :=
  translate b32Alphabet crockAlphabet ['='] (b32encode bs)

/-- `cb32decode` from `src/suou/codecs.py`.  The source evaluates
`want_bytes(val).upper().translate(CROCKFORD_TO_B32)`: `want_bytes`
yields `bytes`, and `bytes.translate` applied to the dict produced by
`str.maketrans` raises `TypeError: a bytes-like object is required, not
'dict'` before `base64.b32decode` ever runs, for `str` and `bytes`
inputs alike.  `none` models the unconditionally raised exception. -/
def cb32decode (_ : List Char) : Option (List Nat) := none

/-- The string-level translation `cb32decode` would perform if its
table were applied to a `str` (what `cb32encode`, which does operate on
`str`, inverts): uppercase, translate Crockford back to base-32, pad
with `'='` to a multiple of 8, then `b32decode`.  Kept separate from
`cb32decode`, which models the source's actual unconditional crash. -/
def cb32decodeIntended (s : List Char) : Option (List Nat) :=
  b32decode (translate crockAlphabet b32Alphabet ['='] (s.map asciiUpper) ++
    List.replicate ((8 - s.length % 8) % 8) '=')

/-! ## CRC-32 and the `Siq` value formatting -/

/-- One bit step of CRC-32 (reflected polynomial `0xEDB88320`). -/
def crcBitStep (c : Nat) : Nat :=
  (c >>> 1) ^^^ (if c % 2 = 1 then 0xEDB88320 else 0)

/-- One byte step: xor the byte in, then eight bit steps. -/
def crcByteStep (c b : Nat) : Nat := crcBitStep^[8] (c ^^^ b)

/-- `binascii.crc32`.  Modelled from the spec: the standard CRC-32
(IEEE 802.3, init and final xor `0xFFFFFFFF`); `binascii` is standard
library code, not part of this repository. -/
def crc32 (bs : List Nat) : Nat :=
  (bs.foldl crcByteStep 0xFFFFFFFF) ^^^ 0xFFFFFFFF

/-- `int.to_bytes(len, 'big')`: `none` models `OverflowError`. -/
def toBytes? (x len : Nat) : Option (List Nat) :=
  if x < 256 ^ len then some (digitsBE 256 len x) else none

/-- `Siq.to_cb32`: Crockford base-32 of the 15-byte serialization with
leading `'0'` digits stripped. -/
def Siq.to_cb32 (x : Nat) : Option (List Char) :=
  (toBytes? x 15).map fun bs => (cb32encode bs).dropWhile (· = '0')

/-- `str.zfill`: left-pad with `'0'` to the given length. -/
def zfill (n : Nat) (s : List Char) : List Char :=
  List.replicate (n - s.length) '0' ++ s

/-- `Siq.from_cb32` (via `Siq.from_bytes`; the `< 14` byte warning is
non-fatal and not modelled). -/
def Siq.from_cb32 (s : List Char) : Option Nat :=
  (cb32decode (zfill 24 s)).map (fromDigitsBE 256)

/-- `Siq.format('u')`: 6-byte big-endian CRC-32 prepended to the
14-byte value, base-32 lowercased, first three characters dropped. -/
def Siq.format_u (x : Nat) : Option (List Char) :=
  (toBytes? x 14).map fun b =>
    (b32lencode (digitsBE 256 6 (crc32 b) ++ b)).drop 3

def didHeader : List Char := ['d', 'i', 'd', ':', 's', 'i', 'q', ':']

/-- `Siq.to_did`: `f'did:siq:{self:u}'`. -/
def Siq.to_did (x : Nat) : Option (List Char) :=
  (Siq.format_u x).map (didHeader ++ ·)

/-- `str.removeprefix`. -/
def removeHeader (p s : List Char) : List Char :=
  if p.isPrefixOf s then s.drop p.length else s

inductive DecodeError
  | checksumMismatch
  | binasciiError
  deriving DecidableEq, Repr

/-- `Siq.from_did`: base-32 decode `'AAA' + did.removeprefix('did:siq:').upper()`,
split the 6-byte checksum, recompute the CRC-32 and compare. -/
def Siq.from_did (did : List Char) : Except DecodeError Nat :=
  match b32decode (['A', 'A', 'A'] ++ (removeHeader didHeader did).map asciiUpper) with
  | none => .error .binasciiError
  | some b =>
    let cs := fromDigitsBE 256 (b.take 6)
    let body := b.drop 6
    if crc32 body ≠ cs then .error .checksumMismatch
    else .ok (fromDigitsBE 256 body)

/-- `Siq.to_hex` / `Siq.to_oct` digit sets. -/
def hexDigits : List Char :=
  ['0', '1', '2', '3', '4', '5', '6', '7', '8', '9'] ++ ['a', 'b', 'c', 'd', 'e', 'f']

def octDigits : List Char := ['0', '1', '2', '3', '4', '5', '6', '7']

/-- Minimal-length base-`b` representation (`format(x, 'x')` with the
hex digits, `format(x, 'o')` with the octal ones); `'0'` for zero. -/
def natRepr (base : Nat) (digits : List Char) (x : Nat) : List Char :=
  if h : x = 0 ∨ base < 2 then []
  else natRepr base digits (x / base) ++ [digits.getD (x % base) '0']
termination_by x
decreasing_by
  exact Nat.div_lt_self (by omega) (by omega)

def Siq.to_hex (x : Nat) : List Char :=
  if x = 0 then ['0'] else natRepr 16 hexDigits x

def Siq.to_oct (x : Nat) : List Char :=
  if x = 0 then ['0'] else natRepr 8 octDigits x

/-- Modelled from the spec: the decoder paired with `to_hex`/`to_oct`
is Python's `int(s, base)` — standard positional parsing, not part of
this repository.  `none` models `ValueError`. -/
def parseBase (base : Nat) (digits : List Char) (s : List Char) : Option Nat :=
  if s = [] then none
  else (charsToDigits (fun c => digits.findIdx? (· = c)) s).map (fromDigitsBE base)

def Siq.from_hex (s : List Char) : Option Nat := parseBase 16 hexDigits s

def Siq.from_oct (s : List Char) : Option Nat := parseBase 8 octDigits s

/-! ## `Siq` field accessors (C10) -/

/-- `Siq.timestamp`: `(self >> 56) / (1 << 16)` — real division
(Python float; modelled exactly as a rational). -/
def Siq.timestamp (x : Nat) : ℚ := ((x >>> 56 : Nat) : ℚ) / ((1 <<< 16 : Nat) : ℚ)

/-- `Siq.shard_id`: `(self >> 48) % 256`. -/
def Siq.shard_id (x : Nat) : Nat := (x >>> 48) % 256

/-- `Siq.domain_name`: `(self >> 16) % 0xffffffff` — note the modulus
is `2^32 - 1`, not `2^32`. -/
def Siq.domain_name (x : Nat) : Nat := (x >>> 16) % 0xffffffff

/-- The packing `SiqGen.generate` performs (the claim C10's wording). -/
def packSiq (ts s d q : Nat) : Nat :=
  (ts <<< 56) ||| ((s % 256) <<< 48) ||| ((d % (1 <<< 32)) <<< 16) ||| (q % (1 <<< 16))

/-! ## Round-trip lemmas for the base-32 codecs -/

theorem fromDigitsBE_lt (base : Nat) (ds : List Nat) (hb : 0 < base)
    (h : ∀ d ∈ ds, d < base) : fromDigitsBE base ds < base ^ ds.length := by
  induction ds using List.reverseRecOn with
  | nil => simpa [fromDigitsBE] using Nat.pos_pow_of_pos 0 hb
  | append_singleton ds d ih =>
    have hd : d < base := h d (by simp)
    have hds : fromDigitsBE base ds < base ^ ds.length := ih fun x hx => h x (by simp [hx])
    rw [fromDigitsBE_append]
    simp only [List.length_append, List.length_singleton]
    have hone : fromDigitsBE base [d] = d := by
      simp [fromDigitsBE]
    rw [hone]
    calc fromDigitsBE base ds * base ^ 1 + d
        ≤ (base ^ ds.length - 1) * base + d := by
          have : fromDigitsBE base ds ≤ base ^ ds.length - 1 := by omega
          have := Nat.mul_le_mul_right (base ^ 1) this
          simpa [pow_one] using this
      _ < base ^ (ds.length + 1) := by
          have hpos : 0 < base ^ ds.length := Nat.pos_pow_of_pos _ hb
          rw [Nat.sub_mul, pow_succ]
          have : base ≤ base ^ ds.length * base :=
            Nat.le_mul_of_pos_left base hpos
          omega

theorem takeWhile_all {p : Char → Bool} (l : List Char) (h : ∀ c ∈ l, p c = true) :
    l.takeWhile p = l := by
  induction l with
  | nil => rfl
  | cons c cs ih =>
    rw [List.takeWhile_cons, if_pos (h c (by simp))]
    rw [ih fun x hx => h x (by simp [hx])]

theorem dropWhile_all {p : Char → Bool} (l : List Char) (h : ∀ c ∈ l, p c = false) :
    l.dropWhile p = l := by
  cases l with
  | nil => rfl
  | cons c cs =>
    rw [List.dropWhile_cons, if_neg (by simp [h c (by simp)])]

theorem charsToDigits_map (f : Char → Option Nat) (g : Nat → Char) (l : List Nat)
    (h : ∀ d ∈ l, f (g d) = some d) :
    charsToDigits f (l.map g) = some l := by
  induction l with
  | nil => rfl
  | cons d ds ih =>
    show charsToDigits f (g d :: ds.map g) = some (d :: ds)
    rw [charsToDigits, h d (by simp), ih fun x hx => h x (by simp [hx])]

theorem b32DigitOf_b32Char : ∀ d < 32, b32DigitOf (b32Char d) = some d := by decide

theorem b32Char_mem : ∀ d < 32, b32Char d ∈ b32Alphabet := by decide

theorem b32Char_ne_eq : ∀ d < 32, b32Char d ≠ '=' := by decide

/-- Encoding peels off exact 5-byte chunks. -/
theorem b32encode_chunk (c5 rest : List Nat) (h : c5.length = 5) :
    b32encode (c5 ++ rest) =
      (digitsBE 32 8 (fromDigitsBE 256 c5)).map b32Char ++ b32encode rest := by
  rcases c5 with _ | ⟨b, bs⟩
  · simp at h
  · show b32encode (b :: (bs ++ rest)) = _
    rw [b32encode]
    have hlen : (b :: (bs ++ rest)).length = 5 + rest.length := by
      simp at h ⊢
      omega
    rw [dif_pos (by omega)]
    have htake : (b :: (bs ++ rest)).take 5 = b :: bs := by
      have := List.take_left (b :: bs) rest
      rw [h] at this
      exact this
    have hdrop : (b :: (bs ++ rest)).drop 5 = rest := by
      have := List.drop_left (b :: bs) rest
      rw [h] at this
      exact this
    rw [htake, hdrop]

/-- Decoding peels off exact 8-character pad-free chunks. -/
theorem b32decodeCore_chunk (ds : List Nat) (rest : List Char)
    (hlen : ds.length = 8) (hds : ∀ d ∈ ds, d < 32) :
    b32decodeCore (ds.map b32Char ++ rest) =
      (b32decodeCore rest).map fun out => digitsBE 256 5 (fromDigitsBE 32 ds) ++ out := by
  have hchars : ∀ c ∈ ds.map b32Char, (c ≠ '=' : Bool) = true := by
    intro c hc
    rw [List.mem_map] at hc
    obtain ⟨d, hd, rfl⟩ := hc
    simpa using b32Char_ne_eq d (hds d hd)
  rcases hmap : ds.map b32Char with _ | ⟨c, s⟩
  · have : ds = [] := by
      cases ds with
      | nil => rfl
      | cons a l => simp at hmap
    rw [this] at hlen
    simp at hlen
  · rw [← hmap]
    have hml : (ds.map b32Char).length = 8 := by
      rw [List.length_map, hlen]
    rw [hmap]
    show b32decodeCore (c :: (s ++ rest)) = _
    rw [b32decodeCore]
    have hcons : c :: (s ++ rest) = (c :: s) ++ rest := rfl
    have htake : (c :: (s ++ rest)).take 8 = c :: s := by
      have := List.take_left (c :: s) rest
      rw [hmap] at hml
      rw [hml] at this
      exact this
    have hdrop : (c :: (s ++ rest)).drop 8 = rest := by
      have := List.drop_left (c :: s) rest
      rw [hmap] at hml
      rw [hml] at this
      exact this
    simp only [htake, hdrop]
    have hbody : (c :: s).takeWhile (· ≠ '=') = c :: s := by
      apply takeWhile_all
      intro x hx
      rw [← hmap] at hx
      exact hchars x hx
    rw [hbody]
    have hbl : (c :: s).length = 8 := by rw [← hmap]; exact hml
    have hs7 : s.length = 7 := by
      simp at hbl
      omega
    rw [if_neg (by
      rw [hbl]
      simp
      intro x hx
      rw [List.drop_eq_nil_of_le (by omega : s.length ≤ 7)] at hx
      cases hx)]
    rw [if_neg (by rw [hbl]; simp)]
    have hcd : charsToDigits b32DigitOf (c :: s) = some ds := by
      rw [← hmap]
      exact charsToDigits_map _ _ ds fun d hd => b32DigitOf_b32Char d (hds d hd)
    rw [hcd]
    rw [hbl]
    simp only [Nat.sub_self, List.replicate_zero, List.append_nil]
    have htk : (digitsBE 256 5 (fromDigitsBE 32 ds)).take 5 =
        digitsBE 256 5 (fromDigitsBE 32 ds) := by
      rw [List.take_of_length_le (by rw [digitsBE_length])]
    rw [htk]

theorem pow32_eq (k : Nat) : (32 : Nat) ^ (8 * k) = 2 ^ (40 * k) := by
  rw [show (32 : Nat) = 2 ^ 5 from rfl, ← pow_mul]
  congr 1
  ring

theorem pow256_eq (k : Nat) : (256 : Nat) ^ (5 * k) = 2 ^ (40 * k) := by
  rw [show (256 : Nat) = 2 ^ 8 from rfl, ← pow_mul]
  congr 1
  ring

/-- `b32encode` over a whole value: the base-256 digits of `V` encode
to the (base-32 digit) characters of `V`. -/
theorem b32encode_digits (k V : Nat) (hV : V < 2 ^ (40 * k)) :
    b32encode (digitsBE 256 (5 * k) V) = (digitsBE 32 (8 * k) V).map b32Char := by
  induction k generalizing V with
  | zero =>
    rw [show digitsBE 256 0 V = [] from rfl, show digitsBE 32 0 V = [] from rfl]
    rw [b32encode]
    rfl
  | succ k ih =>
    have hsplit256 : digitsBE 256 (5 * (k + 1)) V =
        digitsBE 256 5 (V / 256 ^ (5 * k)) ++ digitsBE 256 (5 * k) (V % 256 ^ (5 * k)) := by
      rw [show 5 * (k + 1) = 5 + 5 * k by ring]
      exact digitsBE_add 256 5 (5 * k) V
    have hsplit32 : digitsBE 32 (8 * (k + 1)) V =
        digitsBE 32 8 (V / 32 ^ (8 * k)) ++ digitsBE 32 (8 * k) (V % 32 ^ (8 * k)) := by
      rw [show 8 * (k + 1) = 8 + 8 * k by ring]
      exact digitsBE_add 32 8 (8 * k) V
    have hbase : (256 : Nat) ^ (5 * k) = 32 ^ (8 * k) := by
      rw [pow256_eq, pow32_eq]
    have hdivlt : V / 256 ^ (5 * k) < 256 ^ 5 := by
      rw [Nat.div_lt_iff_lt_mul (Nat.pos_pow_of_pos _ (by norm_num))]
      calc V < 2 ^ (40 * (k + 1)) := hV
        _ = 256 ^ 5 * 256 ^ (5 * k) := by
            rw [← pow_add, ← pow256_eq (k + 1)]
            congr 1
            ring
    have hmodlt : V % 256 ^ (5 * k) < 2 ^ (40 * k) := by
      rw [← pow256_eq]
      exact Nat.mod_lt _ (Nat.pos_pow_of_pos _ (by norm_num))
    rw [hsplit256, b32encode_chunk _ _ (digitsBE_length 256 5 _),
      fromDigitsBE_digitsBE 256 5 _ hdivlt, ih _ hmodlt, hsplit32, List.map_append,
      hbase]

/-- `b32decodeCore` over a whole value. -/
theorem b32decodeCore_digits (k V : Nat) (hV : V < 2 ^ (40 * k)) :
    b32decodeCore ((digitsBE 32 (8 * k) V).map b32Char) =
      some (digitsBE 256 (5 * k) V) := by
  induction k generalizing V with
  | zero =>
    rw [show digitsBE 256 0 V = [] from rfl, show digitsBE 32 0 V = [] from rfl]
    rw [show List.map b32Char [] = [] from rfl]
    rw [b32decodeCore]
  | succ k ih =>
    have hsplit32 : digitsBE 32 (8 * (k + 1)) V =
        digitsBE 32 8 (V / 32 ^ (8 * k)) ++ digitsBE 32 (8 * k) (V % 32 ^ (8 * k)) := by
      rw [show 8 * (k + 1) = 8 + 8 * k by ring]
      exact digitsBE_add 32 8 (8 * k) V
    have hbase : (256 : Nat) ^ (5 * k) = 32 ^ (8 * k) := by
      rw [pow256_eq, pow32_eq]
    have hdivlt : V / 32 ^ (8 * k) < 32 ^ 8 := by
      rw [Nat.div_lt_iff_lt_mul (Nat.pos_pow_of_pos _ (by norm_num))]
      calc V < 2 ^ (40 * (k + 1)) := hV
        _ = 32 ^ 8 * 32 ^ (8 * k) := by
            rw [← pow_add, ← pow32_eq (k + 1)]
            congr 1
            ring
    have hmodlt : V % 32 ^ (8 * k) < 2 ^ (40 * k) := by
      rw [← pow32_eq]
      exact Nat.mod_lt _ (Nat.pos_pow_of_pos _ (by norm_num))
    rw [hsplit32, List.map_append,
      b32decodeCore_chunk _ _ (digitsBE_length 32 8 _)
        (digitsBE_lt 32 8 _ (by norm_num)),
      ih _ hmodlt]
    show some _ = _
    rw [fromDigitsBE_digitsBE 32 8 _ hdivlt]
    congr 1
    rw [show 5 * (k + 1) = 5 + 5 * k by ring, digitsBE_add 256 5 (5 * k) V, hbase]

theorem b32decode_digits (k V : Nat) (hV : V < 2 ^ (40 * k)) :
    b32decode ((digitsBE 32 (8 * k) V).map b32Char) =
      some (digitsBE 256 (5 * k) V) := by
  rw [b32decode, if_neg (by
    rw [List.length_map, digitsBE_length]
    omega)]
  exact b32decodeCore_digits k V hV

/-- Each base-32 character survives the Crockford translation,
uppercasing, and the reverse translation. -/
theorem cb32_char_roundtrip : ∀ c ∈ b32Alphabet,
    ((translateChar b32Alphabet crockAlphabet ['='] c).bind
      fun c1 => translateChar crockAlphabet b32Alphabet ['='] (asciiUpper c1)) = some c := by
  decide

theorem cb32_translate_roundtrip (s : List Char) (h : ∀ c ∈ s, c ∈ b32Alphabet) :
    translate crockAlphabet b32Alphabet ['=']
      ((translate b32Alphabet crockAlphabet ['='] s).map asciiUpper) = s := by
  induction s with
  | nil => rfl
  | cons c cs ih =>
    have hc := cb32_char_roundtrip c (h c (by simp))
    cases htc : translateChar b32Alphabet crockAlphabet ['='] c with
    | none => rw [htc] at hc; cases hc
    | some c1 =>
      rw [htc, Option.some_bind] at hc
      show translate crockAlphabet b32Alphabet ['=']
        ((List.filterMap (translateChar b32Alphabet crockAlphabet ['=']) (c :: cs)).map
          asciiUpper) = c :: cs
      rw [List.filterMap_cons_some htc, List.map_cons]
      show List.filterMap (translateChar crockAlphabet b32Alphabet ['='])
        (asciiUpper c1 :: _) = c :: cs
      rw [List.filterMap_cons_some hc]
      congr 1
      exact ih fun x hx => h x (by simp [hx])

theorem translate_length (s : List Char) (h : ∀ c ∈ s, c ∈ b32Alphabet) :
    (translate b32Alphabet crockAlphabet ['='] s).length = s.length := by
  induction s with
  | nil => rfl
  | cons c cs ih =>
    have hc := cb32_char_roundtrip c (h c (by simp))
    cases htc : translateChar b32Alphabet crockAlphabet ['='] c with
    | none => rw [htc] at hc; cases hc
    | some c1 =>
      show (List.filterMap (translateChar b32Alphabet crockAlphabet ['=']) (c :: cs)).length = _
      rw [List.filterMap_cons_some htc]
      simp only [List.length_cons]
      have := ih fun x hx => h x (by simp [hx])
      rw [translate] at this
      rw [this]

theorem upper_lower_alpha : ∀ c ∈ b32Alphabet, asciiUpper (asciiLower c) = c := by
  decide

theorem rstripEq_all (s : List Char) (h : ∀ c ∈ s, (c = '=') = False) :
    rstripEq s = s := by
  unfold rstripEq
  rw [dropWhile_all _ fun c hc => by
    simp only [decide_eq_false_iff_not]
    rw [List.mem_reverse] at hc
    simpa using (h c hc).le.antisymm (h c hc).ge]
  exact List.reverse_reverse s

theorem zfill_dropWhile (s : List Char) (n : Nat) (h : s.length = n) :
    zfill n (s.dropWhile (· = '0')) = s := by
  conv_rhs => rw [← List.takeWhile_append_dropWhile (p := fun c => decide (c = '0')) (l := s)]
  unfold zfill
  have htw : s.takeWhile (fun c => decide (c = '0')) =
      List.replicate (s.takeWhile (fun c => decide (c = '0'))).length '0' := by
    apply List.eq_replicate_of_mem
    intro b hb
    have := List.takeWhile_subset (p := fun c => decide (c = '0')) hb
    have hp : decide (b = '0') = true := by
      have := List.mem_takeWhile_imp hb
      exact this
    simpa using hp
  have hlensum : (s.takeWhile (fun c => decide (c = '0'))).length +
      (s.dropWhile (fun c => decide (c = '0'))).length = n := by
    rw [← h, ← List.length_append, List.takeWhile_append_dropWhile]
  congr 1
  rw [htw]
  congr 1
  omega

theorem removeHeader_append (p s : List Char) : removeHeader p (p ++ s) = s := by
  unfold removeHeader
  rw [if_pos (List.isPrefixOf_iff_prefix.mpr (List.prefix_append p s)), List.drop_left]

/-! ### CRC-32 stays below `2^32` -/

theorem crcBitStep_lt (c : Nat) (h : c < 2 ^ 32) : crcBitStep c < 2 ^ 32 := by
  unfold crcBitStep
  apply Nat.xor_lt_two_pow
  · have : c >>> 1 ≤ c := by
      rw [Nat.shiftRight_eq_div_pow]
      exact Nat.div_le_self c (2 ^ 1)
    omega
  · split <;> norm_num

theorem crcIter_lt (n c : Nat) (h : c < 2 ^ 32) : crcBitStep^[n] c < 2 ^ 32 := by
  induction n generalizing c with
  | zero => simpa using h
  | succ n ih =>
    rw [Function.iterate_succ_apply]
    exact ih _ (crcBitStep_lt c h)

theorem crcByteStep_lt (c b : Nat) (hc : c < 2 ^ 32) (hb : b < 256) :
    crcByteStep c b < 2 ^ 32 :=
  crcIter_lt 8 _ (Nat.xor_lt_two_pow hc (by omega))

theorem crc_foldl_lt (bs : List Nat) (c : Nat) (hc : c < 2 ^ 32)
    (hb : ∀ b ∈ bs, b < 256) : bs.foldl crcByteStep c < 2 ^ 32 := by
  induction bs generalizing c with
  | nil => simpa using hc
  | cons b bs ih =>
    rw [List.foldl_cons]
    exact ih (crcByteStep c b) (crcByteStep_lt c b hc (hb b (by simp)))
      fun x hx => hb x (by simp [hx])

theorem crc32_lt (bs : List Nat) (hb : ∀ b ∈ bs, b < 256) : crc32 bs < 2 ^ 32 := by
  unfold crc32
  exact Nat.xor_lt_two_pow (crc_foldl_lt bs _ (by norm_num) hb) (by norm_num)

/-! ### C6: round trips.  The Crockford leg never completes: the
source's `cb32decode` raises `TypeError` on every input, so
`Siq.from_cb32` never returns a value.  Had the translation been
applied at the `str` level (`cb32decodeIntended`), the round trip
would hold: `cb32_intended_roundtrip` below. -/

theorem from_cb32_none (s : List Char) : Siq.from_cb32 s = none := rfl

theorem cb32_roundtrip_never (x : Nat) :
    (Siq.to_cb32 x).bind Siq.from_cb32 = none := by
  cases Siq.to_cb32 x with
  | none => rfl
  | some s => rfl

theorem cb32_intended_roundtrip (x : Nat) (hx : x < 2 ^ 112) :
    (Siq.to_cb32 x).bind
      (fun s => (cb32decodeIntended (zfill 24 s)).map (fromDigitsBE 256)) = some x := by
  have hx15 : x < 256 ^ 15 := lt_trans hx (by norm_num)
  have hx120 : x < 2 ^ (40 * 3) := lt_trans hx (by norm_num)
  have hds : ∀ d ∈ digitsBE 32 24 x, d < 32 := digitsBE_lt 32 24 x (by norm_num)
  have hmem : ∀ c ∈ (digitsBE 32 24 x).map b32Char, c ∈ b32Alphabet := by
    intro c hc
    rw [List.mem_map] at hc
    obtain ⟨d, hd, rfl⟩ := hc
    exact b32Char_mem d (hds d hd)
  have henc : b32encode (digitsBE 256 15 x) = (digitsBE 32 24 x).map b32Char := by
    simpa using b32encode_digits 3 x hx120
  unfold Siq.to_cb32
  rw [toBytes?, if_pos hx15]
  rw [Option.map_some', Option.some_bind]
  unfold cb32encode
  rw [henc]
  have hlen : (translate b32Alphabet crockAlphabet ['=']
      ((digitsBE 32 24 x).map b32Char)).length = 24 := by
    rw [translate_length _ hmem, List.length_map, digitsBE_length]
  rw [zfill_dropWhile _ 24 hlen]
  unfold cb32decodeIntended
  rw [hlen]
  simp only [Nat.reduceMod, Nat.sub_zero, Nat.sub_self, List.replicate_zero, List.append_nil]
  rw [cb32_translate_roundtrip _ hmem]
  have hdec : b32decode ((digitsBE 32 24 x).map b32Char) = some (digitsBE 256 15 x) := by
    simpa using b32decode_digits 3 x hx120
  rw [hdec, Option.map_some']
  rw [fromDigitsBE_digitsBE 256 15 x hx15]

theorem did_roundtrip (x : Nat) (hx : x < 2 ^ 112) :
    (Siq.to_did x).map Siq.from_did = some (Except.ok x) := by
  have hx14 : x < 256 ^ 14 := by
    calc x < 2 ^ 112 := hx
      _ ≤ 256 ^ 14 := by norm_num
  have hbbytes : ∀ b ∈ digitsBE 256 14 x, b < 256 := digitsBE_lt 256 14 x (by norm_num)
  have hcs : crc32 (digitsBE 256 14 x) < 2 ^ 32 := crc32_lt _ hbbytes
  set cs := crc32 (digitsBE 256 14 x) with hcsdef
  set V := 2 ^ 112 * cs + x with hVdef
  have hVlt : V < 2 ^ 145 := by
    have h1 : cs + 1 ≤ 2 ^ 32 := hcs
    calc V = 2 ^ 112 * cs + x := hVdef
      _ < 2 ^ 112 * cs + 2 ^ 112 := by omega
      _ = 2 ^ 112 * (cs + 1) := by ring
      _ ≤ 2 ^ 112 * 2 ^ 32 := Nat.mul_le_mul_left _ h1
      _ < 2 ^ 145 := by norm_num
  have hV40 : V < 2 ^ (40 * 4) := by
    calc V < 2 ^ 145 := hVlt
      _ ≤ 2 ^ (40 * 4) := by norm_num
  have hbytes : digitsBE 256 6 cs ++ digitsBE 256 14 x = digitsBE 256 20 V := by
    have hsplit := digitsBE_add 256 6 14 V
    rw [show (6 + 14 : Nat) = 20 from rfl] at hsplit
    have hdiv : V / 256 ^ 14 = cs := by
      rw [hVdef, show (256 : Nat) ^ 14 = 2 ^ 112 by norm_num,
        Nat.mul_add_div (show 0 < 2 ^ 112 by positivity) cs x, Nat.div_eq_of_lt hx,
        Nat.add_zero]
    have hmod : V % 256 ^ 14 = x := by
      rw [hVdef, show (256 : Nat) ^ 14 = 2 ^ 112 by norm_num, Nat.mul_add_mod,
        Nat.mod_eq_of_lt hx]
    rw [hsplit, hdiv, hmod]
  have hds32 : ∀ d ∈ digitsBE 32 32 V, d < 32 := digitsBE_lt 32 32 V (by norm_num)
  have henc : b32encode (digitsBE 256 20 V) = (digitsBE 32 32 V).map b32Char := by
    simpa using b32encode_digits 4 V hV40
  -- the first three base-32 digits of V are zero
  have hV145 : V < 32 ^ 29 := by
    calc V < 2 ^ 145 := hVlt
      _ ≤ 32 ^ 29 := by norm_num
  have hsplit3 : digitsBE 32 32 V = [0, 0, 0] ++ digitsBE 32 29 V := by
    have h1 := digitsBE_add 32 3 29 V
    rw [show (3 + 29 : Nat) = 32 from rfl] at h1
    rw [h1, Nat.div_eq_of_lt hV145, Nat.mod_eq_of_lt hV145]
    rfl
  set Ltail := (digitsBE 32 29 V).map b32Char with hLtail
  have hmem29 : ∀ c ∈ Ltail, c ∈ b32Alphabet := by
    intro c hc
    rw [hLtail, List.mem_map] at hc
    obtain ⟨d, hd, rfl⟩ := hc
    exact b32Char_mem d (digitsBE_lt 32 29 V (by norm_num) d hd)
  have hL : (digitsBE 32 32 V).map b32Char = ['A', 'A', 'A'] ++ Ltail := by
    rw [hsplit3, List.map_append]
    rfl
  -- unfold the encoder
  unfold Siq.to_did Siq.format_u
  rw [toBytes?, if_pos hx14, Option.map_some', Option.map_some']
  unfold b32lencode
  rw [hbytes, henc, rstripEq_all _ (by
    intro c hc
    rw [List.mem_map] at hc
    obtain ⟨d, hd, rfl⟩ := hc
    simp [b32Char_ne_eq d (hds32 d hd)])]
  rw [hL, List.map_append, List.drop_left' (by rfl)]
  -- unfold the decoder
  unfold Siq.from_did
  rw [Option.map_some']
  rw [removeHeader_append]
  have hupper : (Ltail.map asciiLower).map asciiUpper = Ltail := by
    rw [List.map_map]
    have : ∀ c ∈ Ltail, (asciiUpper ∘ asciiLower) c = id c := by
      intro c hc
      exact upper_lower_alpha c (hmem29 c hc)
    rw [List.map_congr_left this, List.map_id]
  rw [hupper]
  have hAAA : (['A', 'A', 'A'] ++ Ltail) = (digitsBE 32 32 V).map b32Char := hL.symm
  rw [hAAA]
  have hdec : b32decode ((digitsBE 32 32 V).map b32Char) = some (digitsBE 256 20 V) := by
    simpa using b32decode_digits 4 V hV40
  rw [hdec]
  dsimp only
  have htake : (digitsBE 256 20 V).take 6 = digitsBE 256 6 cs := by
    rw [← hbytes, List.take_left' (digitsBE_length 256 6 cs)]
  have hdrop : (digitsBE 256 20 V).drop 6 = digitsBE 256 14 x := by
    rw [← hbytes, List.drop_left' (digitsBE_length 256 6 cs)]
  rw [htake, hdrop]
  rw [fromDigitsBE_digitsBE 256 6 cs (by
    calc cs < 2 ^ 32 := hcs
      _ ≤ 256 ^ 6 := by norm_num)]
  rw [if_neg (by simp)]
  rw [fromDigitsBE_digitsBE 256 14 x hx14]

/-! ### C6: hexadecimal and octal round trips -/

theorem charsToDigits_append_singleton (f : Char → Option Nat) (s : List Char)
    (c : Char) (ds : List Nat) (d : Nat) (hs : charsToDigits f s = some ds)
    (hc : f c = some d) : charsToDigits f (s ++ [c]) = some (ds ++ [d]) := by
  induction s generalizing ds with
  | nil =>
    cases hs
    show charsToDigits f [c] = _
    rw [charsToDigits, hc, charsToDigits]
    rfl
  | cons a s ih =>
    rw [charsToDigits] at hs
    cases hfa : f a with
    | none => rw [hfa] at hs; cases hs
    | some da =>
      rw [hfa] at hs
      cases hcd : charsToDigits f s with
      | none => rw [hcd] at hs; cases hs
      | some ds0 =>
        rw [hcd] at hs
        cases hs
        show charsToDigits f (a :: (s ++ [c])) = _
        rw [charsToDigits, hfa, ih ds0 hcd]
        rfl

theorem natRepr_ne_nil (base : Nat) (digits : List Char) (x : Nat)
    (hb : 2 ≤ base) (hx : 0 < x) : natRepr base digits x ≠ [] := by
  rw [natRepr, dif_neg (by omega)]
  simp

theorem cd_natRepr (base : Nat) (digits : List Char) (hbase : 2 ≤ base)
    (hinj : ∀ d < base, digits.findIdx? (· = digits.getD d '0') = some d) :
    ∀ x : Nat, ∃ ds, charsToDigits (fun c => digits.findIdx? (· = c))
      (natRepr base digits x) = some ds ∧ fromDigitsBE base ds = x := by
  intro x
  induction x using Nat.strong_induction_on with
  | _ x ih =>
    rcases Nat.eq_zero_or_pos x with hx | hx
    · subst hx
      refine ⟨[], ?_, rfl⟩
      rw [natRepr, dif_pos (Or.inl rfl)]
      rfl
    · obtain ⟨ds0, hds0, hF0⟩ := ih (x / base) (Nat.div_lt_self hx (by omega))
      refine ⟨ds0 ++ [x % base], ?_, ?_⟩
      · rw [natRepr, dif_neg (by omega)]
        exact charsToDigits_append_singleton _ _ _ _ _ hds0
          (hinj (x % base) (Nat.mod_lt x (by omega)))
      · rw [fromDigitsBE_append]
        have h1 : fromDigitsBE base [x % base] = x % base := by
          simp [fromDigitsBE]
        rw [h1, hF0]
        simp only [List.length_singleton, pow_one]
        rw [Nat.mul_comm, Nat.div_add_mod]

theorem hexDigits_inj :
    ∀ d < 16, hexDigits.findIdx? (· = hexDigits.getD d '0') = some d := by decide

theorem octDigits_inj :
    ∀ d < 8, octDigits.findIdx? (· = octDigits.getD d '0') = some d := by decide

theorem hex_roundtrip (x : Nat) : Siq.from_hex (Siq.to_hex x) = some x := by
  unfold Siq.to_hex Siq.from_hex
  rcases Nat.eq_zero_or_pos x with hx | hx
  · subst hx
    rw [if_pos rfl]
    decide
  · rw [if_neg (by omega)]
    obtain ⟨ds, hds, hF⟩ := cd_natRepr 16 hexDigits (by omega) hexDigits_inj x
    rw [parseBase, if_neg (by simpa using natRepr_ne_nil 16 hexDigits x (by omega) hx),
      hds, Option.map_some', hF]

theorem oct_roundtrip (x : Nat) : Siq.from_oct (Siq.to_oct x) = some x := by
  unfold Siq.to_oct Siq.from_oct
  rcases Nat.eq_zero_or_pos x with hx | hx
  · subst hx
    rw [if_pos rfl]
    decide
  · rw [if_neg (by omega)]
    obtain ⟨ds, hds, hF⟩ := cd_natRepr 8 octDigits (by omega) octDigits_inj x
    rw [parseBase, if_neg (by simpa using natRepr_ne_nil 8 octDigits x (by omega) hx),
      hds, Option.map_some', hF]

/-- **C6, the code at the failing input.**  The hexadecimal, octal and
DID round trips hold for every value in range, but the Crockford
base-32 round trip `Siq.from_cb32` of `Siq.to_cb32` never returns `x`
for any `x`: `cb32decode` applies `bytes.translate` to a
`str.maketrans` dict, which raises `TypeError` on every input, so
`from_cb32` always fails — contradicting the claim's "for every
supported text encoding".  (Shown at the repository's test identifier;
the hex/octal/DID legs hold for all `x < 2 ^ 112` by `hex_roundtrip`,
`oct_roundtrip` and `did_roundtrip`, and the cb32 leg fails for all
`x` and all decoder inputs `s`.) -/
theorem C6_code_bug_eval :
    (∀ s : List Char, Siq.from_cb32 s = none) ∧
    (∀ x : Nat, (Siq.to_cb32 x).bind Siq.from_cb32 = none) ∧
    Siq.from_hex (Siq.to_hex 7451106619238957490390643507207) =
      some 7451106619238957490390643507207 ∧
    Siq.from_oct (Siq.to_oct 7451106619238957490390643507207) =
      some 7451106619238957490390643507207 ∧
    (Siq.to_did 7451106619238957490390643507207).map Siq.from_did =
      some (Except.ok 7451106619238957490390643507207) :=
  ⟨from_cb32_none, cb32_roundtrip_never,
   hex_roundtrip 7451106619238957490390643507207,
   oct_roundtrip 7451106619238957490390643507207,
   did_roundtrip 7451106619238957490390643507207 (by norm_num)⟩

/-- **C10, the code at the failing input.**  For the identifier packed
exactly as `SiqGen.generate` packs it, with timestamp field 1, shard 0,
domain hash 0 and tag+counter word 0, the accessor `domain_name()`
returns `(2^40) mod (2^32 - 1) = 256`, not the domain hash 0: the
accessor reduces modulo `0xffffffff = 2^32 - 1` instead of `2^32`, so
it does not invert the generator's packing (the `shard_id()` and
`timestamp()` parts do hold at this input). -/
theorem C10_code_bug_eval :
    Siq.domain_name (packSiq 1 0 0 0) = 256 ∧ (256 : Nat) ≠ 0 ∧
    Siq.shard_id (packSiq 1 0 0 0) = 0 ∧
    Siq.timestamp (packSiq 1 0 0 0) = 1 / 2 ^ 16 := by
  refine ⟨by decide, by decide, by decide, ?_⟩
  unfold Siq.timestamp
  rw [show (packSiq 1 0 0 0 >>> 56 : Nat) = 1 from by decide,
    show ((1 <<< 16 : Nat)) = 65536 from rfl]
  norm_num

/-! ## C7: single-character corruption of the DID URI

The corruption analysis works on the 160-bit checksum+value word `V`:
substituting one base-32 character xors a 5-bit burst into `V`, and the
recomputed CRC-32 can never match the (possibly also xored) stored
checksum, because CRC-32 is linear under xor and no nonzero 5-bit burst
has a zero CRC remainder. -/

theorem nat_xor_mod_two_pow (a b k : Nat) :
    (a ^^^ b) % 2 ^ k = a % 2 ^ k ^^^ b % 2 ^ k := by
  apply Nat.eq_of_testBit_eq
  intro i
  simp [Nat.testBit_mod_two_pow, Nat.testBit_xor]
  by_cases h : i < k <;> simp [h]

theorem nat_xor_shiftRight (a b k : Nat) :
    (a ^^^ b) >>> k = a >>> k ^^^ b >>> k := by
  apply Nat.eq_of_testBit_eq
  intro i
  simp [Nat.testBit_shiftRight, Nat.testBit_xor]

theorem nat_xor_cancel_left (a b : Nat) : a ^^^ (a ^^^ b) = b := by
  rw [← Nat.xor_assoc, Nat.xor_self, Nat.zero_xor]

theorem nat_xor_ne_self (a m : Nat) (h : m ≠ 0) : a ^^^ m ≠ a := by
  intro he
  apply h
  have : a ^^^ (a ^^^ m) = a ^^^ a := by rw [he]
  rw [nat_xor_cancel_left, Nat.xor_self] at this
  exact this

/-- Xoring two values that agree outside one 5-bit field. -/
theorem xor_field (u v R K : Nat) (hu : u < 32) (hv : v < 32) (hR : R < 32 ^ K) :
    (u * 32 ^ K + R) ^^^ (v * 32 ^ K + R) = (u ^^^ v) * 32 ^ K := by
  have h32 : (32 : Nat) ^ K = 2 ^ (5 * K) := by
    rw [show (32 : Nat) = 2 ^ 5 from rfl, ← pow_mul]
  rw [h32] at hR ⊢
  apply Nat.eq_of_testBit_eq
  intro i
  have hform : ∀ w : Nat, w * 2 ^ (5 * K) + R = 2 ^ (5 * K) * w + R := fun w => by ring
  rw [hform u, hform v, show (u ^^^ v) * 2 ^ (5 * K) = 2 ^ (5 * K) * (u ^^^ v) by ring]
  rw [Nat.testBit_xor, Nat.testBit_mul_pow_two_add _ hR, Nat.testBit_mul_pow_two_add _ hR,
    Nat.testBit_mul_pow_two]
  by_cases hi : i < 5 * K
  · simp [hi, Nat.not_le_of_lt hi]
  · simp [hi, Nat.le_of_not_lt hi, Nat.testBit_xor]

/-- Xoring below an untouched high part. -/
theorem add_hi_xor (a u X K : Nat) (hu : u < 2 ^ K) (hX : X < 2 ^ K) :
    (2 ^ K * a + u) ^^^ X = 2 ^ K * a + (u ^^^ X) := by
  have hux : u ^^^ X < 2 ^ K := Nat.xor_lt_two_pow hu hX
  apply Nat.eq_of_testBit_eq
  intro i
  rw [Nat.testBit_xor, Nat.testBit_mul_pow_two_add _ hu, Nat.testBit_mul_pow_two_add _ hux]
  by_cases hi : i < K
  · simp [hi, Nat.testBit_xor]
  · have hXi : X.testBit i = false :=
      Nat.testBit_lt_two_pow (lt_of_lt_of_le hX
        (Nat.pow_le_pow_right (by omega) (Nat.le_of_not_lt hi)))
    simp [hi, hXi]

/-- Replacing the `j`-th (big-endian) base-32 digit xors a 5-bit burst
into the recombined value. -/
theorem fromDigits_set_xor (ds : List Nat) (j d' : Nat) (hj : j < ds.length)
    (hds : ∀ d ∈ ds, d < 32) (hd' : d' < 32) :
    fromDigitsBE 32 (ds.set j d') =
      fromDigitsBE 32 ds ^^^ ((ds.getD j 0 ^^^ d') * 32 ^ (ds.length - 1 - j)) := by
  induction ds generalizing j with
  | nil => simp at hj
  | cons a l ih =>
    have hcons : ∀ (b : Nat) (t : List Nat),
        fromDigitsBE 32 (b :: t) = b * 32 ^ t.length + fromDigitsBE 32 t := by
      intro b t
      have := fromDigitsBE_append 32 [b] t
      simpa [fromDigitsBE] using this
    have hl32 : ∀ d ∈ l, d < 32 := fun d hd => hds d (by simp [hd])
    have hRlt : fromDigitsBE 32 l < 32 ^ l.length :=
      fromDigitsBE_lt 32 l (by norm_num) hl32
    cases j with
    | zero =>
      show fromDigitsBE 32 (d' :: l) = _
      rw [hcons d' l, hcons a l]
      simp only [List.getD_cons_zero, List.length_cons, Nat.add_sub_cancel, Nat.sub_zero]
      rw [← xor_field a d' (fromDigitsBE 32 l) l.length (hds a (by simp)) hd' hRlt]
      rw [nat_xor_cancel_left]
    | succ j =>
      show fromDigitsBE 32 (a :: l.set j d') = _
      have hjl : j < l.length := by simpa using hj
      rw [hcons a (l.set j d'), List.length_set, hcons a l, ih j hjl hl32]
      have hXlt : (l.getD j 0 ^^^ d') * 32 ^ (l.length - 1 - j) < 32 ^ l.length := by
        have hgd : l.getD j 0 < 32 := by
          rw [List.getD_eq_getElem l 0 hjl]
          exact hl32 _ (List.getElem_mem hjl)
        have hxl : l.getD j 0 ^^^ d' < 32 := @Nat.xor_lt_two_pow (l.getD j 0) d' 5 hgd hd'
        calc (l.getD j 0 ^^^ d') * 32 ^ (l.length - 1 - j) < 32 * 32 ^ (l.length - 1 - j) :=
              (Nat.mul_lt_mul_right (Nat.pos_pow_of_pos _ (by norm_num))).mpr hxl
          _ = 32 ^ (l.length - j) := by
              rw [← pow_succ']
              congr 1
              omega
          _ ≤ 32 ^ l.length := Nat.pow_le_pow_right (by norm_num) (by omega)
      have h32l : (32 : Nat) ^ l.length = 2 ^ (5 * l.length) := by
        rw [show (32 : Nat) = 2 ^ 5 from rfl, ← pow_mul]
      simp only [List.getD_cons_succ, List.length_cons]
      have hexp : l.length + 1 - 1 - (j + 1) = l.length - 1 - j := by omega
      rw [hexp]
      have key := add_hi_xor a (fromDigitsBE 32 l)
        ((l.getD j 0 ^^^ d') * 32 ^ (l.length - 1 - j)) (5 * l.length)
        (by rw [← h32l]; exact hRlt) (by rw [← h32l]; exact hXlt)
      rw [show a * 32 ^ l.length = 2 ^ (5 * l.length) * a by rw [← h32l]; ring]
      exact key.symm

/-! ### CRC-32 is linear under xor -/

theorem nat_xor_left_comm (a b c : Nat) : a ^^^ (b ^^^ c) = b ^^^ (a ^^^ c) := by
  rw [← Nat.xor_assoc, Nat.xor_comm a b, Nat.xor_assoc]

theorem xor_xor_cancel (A B P : Nat) : (A ^^^ P) ^^^ (B ^^^ P) = A ^^^ B := by
  rw [Nat.xor_assoc A P (B ^^^ P), Nat.xor_comm B P, nat_xor_cancel_left]

theorem crcBitStep_xor (a b : Nat) :
    crcBitStep (a ^^^ b) = crcBitStep a ^^^ crcBitStep b := by
  unfold crcBitStep
  have hmod : (a ^^^ b) % 2 = a % 2 ^^^ b % 2 := by
    simpa using nat_xor_mod_two_pow a b 1
  rw [nat_xor_shiftRight, hmod]
  rcases Nat.mod_two_eq_zero_or_one a with ha | ha <;>
    rcases Nat.mod_two_eq_zero_or_one b with hb | hb
  · simp [ha, hb]
  · simp [ha, hb, Nat.xor_assoc]
  · simp [ha, hb]
    rw [Nat.xor_assoc, Nat.xor_comm (b >>> 1) 0xEDB88320, ← Nat.xor_assoc]
  · simp [ha, hb]
    exact (xor_xor_cancel _ _ _).symm

theorem crcIter_xor (n a b : Nat) :
    crcBitStep^[n] (a ^^^ b) = crcBitStep^[n] a ^^^ crcBitStep^[n] b := by
  induction n generalizing a b with
  | zero => rfl
  | succ n ih =>
    rw [Function.iterate_succ_apply, Function.iterate_succ_apply,
      Function.iterate_succ_apply, crcBitStep_xor, ih]

theorem crcByteStep_xor (c1 c2 b1 b2 : Nat) :
    crcByteStep (c1 ^^^ c2) (b1 ^^^ b2) = crcByteStep c1 b1 ^^^ crcByteStep c2 b2 := by
  unfold crcByteStep
  rw [← crcIter_xor]
  congr 1
  rw [Nat.xor_assoc c1 c2, nat_xor_left_comm c2 b1 b2, ← Nat.xor_assoc c1 b1]

theorem crc_fold_xor : ∀ (l1 l2 : List Nat) (c1 c2 : Nat), l1.length = l2.length →
    (List.zipWith (fun x y => x ^^^ y) l1 l2).foldl crcByteStep (c1 ^^^ c2) =
      l1.foldl crcByteStep c1 ^^^ l2.foldl crcByteStep c2 := by
  intro l1
  induction l1 with
  | nil =>
    intro l2 c1 c2 h
    have : l2 = [] := List.length_eq_zero.mp (by simpa using h.symm)
    subst this
    rfl
  | cons a l1 ih =>
    intro l2 c1 c2 h
    cases l2 with
    | nil => simp at h
    | cons b l2 =>
      show (List.zipWith _ (a :: l1) (b :: l2)).foldl crcByteStep (c1 ^^^ c2) = _
      rw [List.zipWith_cons_cons, List.foldl_cons, List.foldl_cons, List.foldl_cons,
        crcByteStep_xor]
      exact ih l2 _ _ (by simpa using h)

/-- The CRC-32 remainder (zero init, no final xor) of the 14-byte
serialization of a burst value. -/
def crcZero (e : Nat) : Nat := (digitsBE 256 14 e).foldl crcByteStep 0

theorem digitsBE_xor (n a b : Nat) :
    digitsBE 256 n (a ^^^ b) =
      List.zipWith (fun x y => x ^^^ y) (digitsBE 256 n a) (digitsBE 256 n b) := by
  induction n generalizing a b with
  | zero => rfl
  | succ n ih =>
    have hdiv : (a ^^^ b) / 256 = a / 256 ^^^ b / 256 := by
      have h := nat_xor_shiftRight a b 8
      simpa [Nat.shiftRight_eq_div_pow] using h
    have hmod : (a ^^^ b) % 256 = a % 256 ^^^ b % 256 := by
      simpa using nat_xor_mod_two_pow a b 8
    show digitsBE 256 n ((a ^^^ b) / 256) ++ [(a ^^^ b) % 256] = _
    rw [hdiv, hmod, ih]
    rw [show digitsBE 256 (n + 1) a = digitsBE 256 n (a / 256) ++ [a % 256] from rfl,
      show digitsBE 256 (n + 1) b = digitsBE 256 n (b / 256) ++ [b % 256] from rfl]
    rw [List.zipWith_append _ _ _ _ _ (by rw [digitsBE_length, digitsBE_length])]
    rfl

theorem crc32_digits_xor (x e : Nat) :
    crc32 (digitsBE 256 14 (x ^^^ e)) = crc32 (digitsBE 256 14 x) ^^^ crcZero e := by
  unfold crc32 crcZero
  rw [digitsBE_xor]
  have h := crc_fold_xor (digitsBE 256 14 x) (digitsBE 256 14 e) 0xFFFFFFFF 0
    (by rw [digitsBE_length, digitsBE_length])
  rw [Nat.xor_zero] at h
  rw [h]
  rw [Nat.xor_assoc, Nat.xor_comm ((digitsBE 256 14 e).foldl crcByteStep 0) 0xFFFFFFFF,
    ← Nat.xor_assoc]

set_option maxHeartbeats 16000000 in
set_option maxRecDepth 100000 in
/-- No nonzero 5-bit burst anywhere inside the 112-bit value field has
CRC remainder zero (checked exhaustively: 22 positions × 31 deltas). -/
theorem crcZero_burst_ne : ∀ m < 22, ∀ d < 32, d ≠ 0 → crcZero (d * 2 ^ (5 * m)) ≠ 0 := by
  decide

set_option maxHeartbeats 16000000 in
set_option maxRecDepth 100000 in
/-- For the digit straddling the checksum/value boundary, the CRC
remainder of the low 2 bits never equals the xor of the high 3 bits. -/
theorem crcZero_mid_ne : ∀ d < 32, d ≠ 0 → crcZero ((d % 4) * 2 ^ 110) ≠ d / 4 := by
  decide

/-- The lowercase base-32 alphabet: the character set the DID encoder
emits for its payload. -/
def b32LowerAlphabet : List Char := b32Alphabet.map asciiLower

theorem lower_upper_mem : ∀ c ∈ b32LowerAlphabet,
    asciiUpper c ∈ b32Alphabet ∧ asciiLower (asciiUpper c) = c := by
  decide

theorem b32DigitOf_getD : ∀ c ∈ b32Alphabet,
    (b32DigitOf c).getD 0 < 32 ∧ b32Char ((b32DigitOf c).getD 0) = c := by
  decide

/-- The DID encoder's output: the literal header followed by the
lowercased base-32 digits of the 160-bit checksum+value word. -/
theorem to_did_eq (x : Nat) (hx : x < 2 ^ 112) :
    Siq.to_did x = some (didHeader ++
      ((digitsBE 32 29 (2 ^ 112 * crc32 (digitsBE 256 14 x) + x)).map b32Char).map
        asciiLower) := by
  have hx14 : x < 256 ^ 14 := by
    calc x < 2 ^ 112 := hx
      _ ≤ 256 ^ 14 := by norm_num
  set cs := crc32 (digitsBE 256 14 x) with hcsdef
  have hbbytes : ∀ b ∈ digitsBE 256 14 x, b < 256 := digitsBE_lt 256 14 x (by norm_num)
  have hcs : cs < 2 ^ 32 := crc32_lt _ hbbytes
  set V := 2 ^ 112 * cs + x with hVdef
  have hVlt : V < 2 ^ 145 := by
    have h1 : cs + 1 ≤ 2 ^ 32 := hcs
    calc V = 2 ^ 112 * cs + x := hVdef
      _ < 2 ^ 112 * cs + 2 ^ 112 := by omega
      _ = 2 ^ 112 * (cs + 1) := by ring
      _ ≤ 2 ^ 112 * 2 ^ 32 := Nat.mul_le_mul_left _ h1
      _ < 2 ^ 145 := by norm_num
  have hV40 : V < 2 ^ (40 * 4) := by
    calc V < 2 ^ 145 := hVlt
      _ ≤ 2 ^ (40 * 4) := by norm_num
  have hbytes : digitsBE 256 6 cs ++ digitsBE 256 14 x = digitsBE 256 20 V := by
    have hsplit := digitsBE_add 256 6 14 V
    rw [show (6 + 14 : Nat) = 20 from rfl] at hsplit
    have hdiv : V / 256 ^ 14 = cs := by
      rw [hVdef, show (256 : Nat) ^ 14 = 2 ^ 112 by norm_num,
        Nat.mul_add_div (show 0 < 2 ^ 112 by positivity) cs x, Nat.div_eq_of_lt hx,
        Nat.add_zero]
    have hmod : V % 256 ^ 14 = x := by
      rw [hVdef, show (256 : Nat) ^ 14 = 2 ^ 112 by norm_num, Nat.mul_add_mod,
        Nat.mod_eq_of_lt hx]
    rw [hsplit, hdiv, hmod]
  have hds32 : ∀ d ∈ digitsBE 32 32 V, d < 32 := digitsBE_lt 32 32 V (by norm_num)
  have henc : b32encode (digitsBE 256 20 V) = (digitsBE 32 32 V).map b32Char := by
    simpa using b32encode_digits 4 V hV40
  have hV145 : V < 32 ^ 29 := by
    calc V < 2 ^ 145 := hVlt
      _ ≤ 32 ^ 29 := by norm_num
  have hsplit3 : digitsBE 32 32 V = [0, 0, 0] ++ digitsBE 32 29 V := by
    have h1 := digitsBE_add 32 3 29 V
    rw [show (3 + 29 : Nat) = 32 from rfl] at h1
    rw [h1, Nat.div_eq_of_lt hV145, Nat.mod_eq_of_lt hV145]
    rfl
  have hL : (digitsBE 32 32 V).map b32Char =
      ['A', 'A', 'A'] ++ (digitsBE 32 29 V).map b32Char := by
    rw [hsplit3, List.map_append]
    rfl
  unfold Siq.to_did Siq.format_u
  rw [toBytes?, if_pos hx14, Option.map_some', Option.map_some']
  unfold b32lencode
  rw [hbytes, henc, rstripEq_all _ (by
    intro c hc
    rw [List.mem_map] at hc
    obtain ⟨d, hd, rfl⟩ := hc
    simp [b32Char_ne_eq d (hds32 d hd)])]
  rw [hL, List.map_append, List.drop_left' (by rfl)]

theorem xor_left_ne (a u v : Nat) (h : u ≠ v) : a ^^^ u ≠ a ^^^ v := by
  intro he
  apply h
  have h1 : a ^^^ (a ^^^ u) = a ^^^ (a ^^^ v) := by rw [he]
  rwa [nat_xor_cancel_left, nat_xor_cancel_left] at h1

/-- The core of C7: xoring any nonzero 5-bit burst at any of the 29
payload digit positions into the 160-bit checksum+value word makes the
recomputed CRC-32 of the value part differ from the stored checksum
part. -/
theorem crc_mismatch_core (x cs p Δ : Nat) (hx : x < 2 ^ 112)
    (hcs : cs = crc32 (digitsBE 256 14 x)) (hp : p < 29) (hΔ : Δ < 32) (hΔ0 : Δ ≠ 0) :
    crc32 (digitsBE 256 14 (((2 ^ 112 * cs + x) ^^^ Δ * 32 ^ (28 - p)) % 2 ^ 112)) ≠
      ((2 ^ 112 * cs + x) ^^^ Δ * 32 ^ (28 - p)) / 256 ^ 14 := by
  have h32K : (32 : Nat) ^ (28 - p) = 2 ^ (5 * (28 - p)) := by
    rw [show (32 : Nat) = 2 ^ 5 from rfl, ← pow_mul]
  have h25614 : (256 : Nat) ^ 14 = 2 ^ 112 := by norm_num
  set V := 2 ^ 112 * cs + x with hVdef
  have hVmod : V % 2 ^ 112 = x := by
    rw [hVdef, Nat.mul_add_mod, Nat.mod_eq_of_lt hx]
  have hVdiv : V / 2 ^ 112 = cs := by
    rw [hVdef, Nat.mul_add_div (by positivity) cs x, Nat.div_eq_of_lt hx, Nat.add_zero]
  have hdivshift : ∀ w : Nat, w / 2 ^ 112 = w >>> 112 := fun w => by
    rw [Nat.shiftRight_eq_div_pow]
  rw [h25614, h32K]
  set A := Δ * 2 ^ (5 * (28 - p)) with hAdef
  have hmodsplit : (V ^^^ A) % 2 ^ 112 = x ^^^ A % 2 ^ 112 := by
    rw [nat_xor_mod_two_pow, hVmod]
  have hdivsplit : (V ^^^ A) / 2 ^ 112 = cs ^^^ A / 2 ^ 112 := by
    rw [hdivshift, nat_xor_shiftRight, ← hdivshift, ← hdivshift, hVdiv]
  rw [hmodsplit, hdivsplit]
  rcases lt_or_le p 6 with hp6 | hp6
  · -- the burst lies entirely inside the checksum field
    have hK : 112 ≤ 5 * (28 - p) := by omega
    have hpow : (2 : Nat) ^ (5 * (28 - p)) = 2 ^ (5 * (28 - p) - 112) * 2 ^ 112 := by
      rw [← pow_add]
      congr 1
      omega
    have hA : A = Δ * 2 ^ (5 * (28 - p) - 112) * 2 ^ 112 := by
      rw [hAdef, hpow]
      ring
    have hAmod : A % 2 ^ 112 = 0 := by
      rw [hA, Nat.mul_mod_left]
    have hAdiv : A / 2 ^ 112 = Δ * 2 ^ (5 * (28 - p) - 112) := by
      rw [hA, Nat.mul_div_cancel _ (by positivity)]
    rw [hAmod, hAdiv, Nat.xor_zero, ← hcs]
    have hN : Δ * 2 ^ (5 * (28 - p) - 112) ≠ 0 := by positivity
    exact (nat_xor_ne_self cs _ hN).symm
  rcases Nat.eq_or_lt_of_le hp6 with hp6' | hp7
  · -- the burst straddles the boundary: p = 6
    have hp6'' : p = 6 := hp6'.symm
    subst hp6''
    have hqr : 4 * (Δ / 4) + Δ % 4 = Δ := Nat.div_add_mod Δ 4
    have hK : 5 * (28 - 6) = 110 := by norm_num
    rw [hK] at hAdef
    have hA : A = 2 ^ 112 * (Δ / 4) + Δ % 4 * 2 ^ 110 := by
      rw [hAdef]
      conv_lhs => rw [show Δ = 4 * (Δ / 4) + Δ % 4 from (Nat.div_add_mod Δ 4).symm]
      rw [show (2 : Nat) ^ 112 = 4 * 2 ^ 110 by norm_num]
      ring
    have hrlt : Δ % 4 * 2 ^ 110 < 2 ^ 112 := by
      have h4 : Δ % 4 < 4 := Nat.mod_lt _ (by omega)
      calc Δ % 4 * 2 ^ 110 < 4 * 2 ^ 110 :=
            (Nat.mul_lt_mul_right (by positivity)).mpr h4
        _ = 2 ^ 112 := by norm_num
    have hAmod : A % 2 ^ 112 = Δ % 4 * 2 ^ 110 := by
      rw [hA, Nat.mul_add_mod, Nat.mod_eq_of_lt hrlt]
    have hAdiv : A / 2 ^ 112 = Δ / 4 := by
      rw [hA, Nat.mul_add_div (by positivity), Nat.div_eq_of_lt hrlt, Nat.add_zero]
    rw [hAmod, hAdiv, crc32_digits_xor, ← hcs]
    exact xor_left_ne cs _ _ (crcZero_mid_ne Δ hΔ hΔ0)
  · -- the burst lies entirely inside the value field
    have hm : 28 - p < 22 := by omega
    have hAlt : A < 2 ^ 112 := by
      calc A < 32 * 2 ^ (5 * (28 - p)) :=
            (Nat.mul_lt_mul_right (by positivity)).mpr hΔ
        _ = 2 ^ (5 * (28 - p) + 5) := by
            rw [pow_add]
            ring
        _ ≤ 2 ^ 112 := Nat.pow_le_pow_right (by omega) (by omega)
    have hAmod : A % 2 ^ 112 = A := Nat.mod_eq_of_lt hAlt
    have hAdiv : A / 2 ^ 112 = 0 := Nat.div_eq_of_lt hAlt
    rw [hAmod, hAdiv, Nat.xor_zero, crc32_digits_xor, ← hcs]
    have hz : crcZero A ≠ 0 := crcZero_burst_ne (28 - p) hm Δ hΔ hΔ0
    exact nat_xor_ne_self cs _ hz

/-- Substituting the `p`-th payload digit character of the DID encoding
by a different lowercase base-32 character makes the decoder's
recomputed CRC disagree with the stored checksum. -/
theorem from_did_set_mismatch (x cs V : Nat) (hx : x < 2 ^ 112)
    (hcs : cs = crc32 (digitsBE 256 14 x)) (hV : V = 2 ^ 112 * cs + x)
    (p : Nat) (hp : p < 29) (c : Char) (hc : c ∈ b32LowerAlphabet)
    (hdiff : c ≠ asciiLower (b32Char ((digitsBE 32 29 V).getD p 0))) :
    Siq.from_did (didHeader ++
        (((digitsBE 32 29 V).map b32Char).map asciiLower).set p c) =
      Except.error DecodeError.checksumMismatch := by
  have hbbytes : ∀ b ∈ digitsBE 256 14 x, b < 256 := digitsBE_lt 256 14 x (by norm_num)
  have hcslt : cs < 2 ^ 32 := hcs ▸ crc32_lt _ hbbytes
  have hVlt : V < 2 ^ 145 := by
    rw [hV]
    calc 2 ^ 112 * cs + x < 2 ^ 112 * cs + 2 ^ 112 := by omega
      _ = 2 ^ 112 * (cs + 1) := by ring
      _ ≤ 2 ^ 112 * 2 ^ 32 := Nat.mul_le_mul_left _ hcslt
      _ < 2 ^ 145 := by norm_num
  have hV160 : V < 32 ^ 32 := lt_of_lt_of_le hVlt (by norm_num)
  have hV145 : V < 32 ^ 29 := lt_of_lt_of_le hVlt (by norm_num)
  have htail29lt : ∀ d ∈ digitsBE 32 29 V, d < 32 := digitsBE_lt 32 29 V (by norm_num)
  have hds32lt : ∀ d ∈ digitsBE 32 32 V, d < 32 := digitsBE_lt 32 32 V (by norm_num)
  have hsplit3 : digitsBE 32 32 V = [0, 0, 0] ++ digitsBE 32 29 V := by
    have h1 := digitsBE_add 32 3 29 V
    rw [show (3 + 29 : Nat) = 32 from rfl] at h1
    rw [h1, Nat.div_eq_of_lt hV145, Nat.mod_eq_of_lt hV145]
    rfl
  obtain ⟨hcU, hcl⟩ := lower_upper_mem c hc
  obtain ⟨d', hd'lt, hd'char⟩ : ∃ d', d' < 32 ∧ b32Char d' = asciiUpper c :=
    ⟨_, b32DigitOf_getD (asciiUpper c) hcU⟩
  have hmem29 : ∀ ch ∈ (digitsBE 32 29 V).map b32Char, ch ∈ b32Alphabet := by
    intro ch hch
    rw [List.mem_map] at hch
    obtain ⟨d, hd, rfl⟩ := hch
    exact b32Char_mem d (htail29lt d hd)
  have hupper : (((digitsBE 32 29 V).map b32Char).map asciiLower).map asciiUpper
      = (digitsBE 32 29 V).map b32Char := by
    rw [List.map_map]
    have h1 : ∀ ch ∈ (digitsBE 32 29 V).map b32Char,
        (asciiUpper ∘ asciiLower) ch = id ch :=
      fun ch hch => upper_lower_alpha ch (hmem29 ch hch)
    rw [List.map_congr_left h1, List.map_id]
  have hsetU : ((((digitsBE 32 29 V).map b32Char).map asciiLower).set p c).map asciiUpper
      = ((digitsBE 32 29 V).map b32Char).set p (asciiUpper c) := by
    rw [List.map_set, hupper]
  have hset32 : ((digitsBE 32 32 V).set (3 + p) d').map b32Char
      = ['A', 'A', 'A'] ++ ((digitsBE 32 29 V).map b32Char).set p (asciiUpper c) := by
    rw [hsplit3, List.set_append_right (3 + p) d' (by simp)]
    rw [show 3 + p - ([0, 0, 0] : List Nat).length = p from by simp]
    rw [List.map_append, List.map_set, hd'char]
    rfl
  have hds'lt : ∀ d ∈ (digitsBE 32 32 V).set (3 + p) d', d < 32 := by
    intro d hd
    rcases List.mem_or_eq_of_mem_set hd with h | rfl
    · exact hds32lt d h
    · exact hd'lt
  have hds'len : ((digitsBE 32 32 V).set (3 + p) d').length = 32 := by
    rw [List.length_set, digitsBE_length]
  have hxor := fromDigits_set_xor (digitsBE 32 32 V) (3 + p) d'
    (by rw [digitsBE_length]; omega) hds32lt hd'lt
  rw [fromDigitsBE_digitsBE 32 32 V hV160] at hxor
  rw [show (digitsBE 32 32 V).length - 1 - (3 + p) = 28 - p from by
    rw [digitsBE_length]; omega] at hxor
  have hgetD : (digitsBE 32 32 V).getD (3 + p) 0 = (digitsBE 32 29 V).getD p 0 := by
    rw [hsplit3, List.getD_append_right _ _ _ _ (by simp)]
    rw [show 3 + p - ([0, 0, 0] : List Nat).length = p from by simp]
  rw [hgetD] at hxor
  have hgdlt : (digitsBE 32 29 V).getD p 0 < 32 := by
    rw [List.getD_eq_getElem _ 0 (by rw [digitsBE_length]; omega)]
    exact htail29lt _ (List.getElem_mem _)
  have hΔlt : (digitsBE 32 29 V).getD p 0 ^^^ d' < 32 :=
    @Nat.xor_lt_two_pow ((digitsBE 32 29 V).getD p 0) d' 5 hgdlt hd'lt
  have hΔ0 : (digitsBE 32 29 V).getD p 0 ^^^ d' ≠ 0 := by
    intro h0
    apply hdiff
    rw [Nat.xor_eq_zero.mp h0, hd'char, hcl]
  set Δ := (digitsBE 32 29 V).getD p 0 ^^^ d' with hΔdef
  set W := V ^^^ Δ * 32 ^ (28 - p) with hWdef
  have hds'eq : digitsBE 32 32 W = (digitsBE 32 32 V).set (3 + p) d' := by
    rw [← hxor]
    have h := digitsBE_fromDigitsBE 32 ((digitsBE 32 32 V).set (3 + p) d') hds'lt
    rw [hds'len] at h
    exact h
  have hWlt : W < 2 ^ (40 * 4) := by
    rw [← hxor]
    have h := fromDigitsBE_lt 32 _ (by norm_num) hds'lt
    rw [hds'len] at h
    calc fromDigitsBE 32 ((digitsBE 32 32 V).set (3 + p) d') < 32 ^ 32 := h
      _ = 2 ^ (40 * 4) := by norm_num
  have hdec : b32decode ((digitsBE 32 32 W).map b32Char)
      = some (digitsBE 256 20 W) := by
    simpa using b32decode_digits 4 W hWlt
  unfold Siq.from_did
  rw [removeHeader_append, hsetU, ← hset32, ← hds'eq, hdec]
  dsimp only
  have hW20 : W < 256 ^ 20 := by
    rw [show (256 : Nat) ^ 20 = 2 ^ (40 * 4) by norm_num]
    exact hWlt
  have hsplit614 : digitsBE 256 20 W
      = digitsBE 256 6 (W / 256 ^ 14) ++ digitsBE 256 14 (W % 256 ^ 14) := by
    have h1 := digitsBE_add 256 6 14 W
    rw [show (6 + 14 : Nat) = 20 from rfl] at h1
    exact h1
  have htake : (digitsBE 256 20 W).take 6 = digitsBE 256 6 (W / 256 ^ 14) := by
    rw [hsplit614, List.take_left' (digitsBE_length 256 6 _)]
  have hdrop : (digitsBE 256 20 W).drop 6 = digitsBE 256 14 (W % 256 ^ 14) := by
    rw [hsplit614, List.drop_left' (digitsBE_length 256 6 _)]
  have hcsrec : fromDigitsBE 256 (digitsBE 256 6 (W / 256 ^ 14)) = W / 256 ^ 14 := by
    apply fromDigitsBE_digitsBE
    rw [Nat.div_lt_iff_lt_mul (by positivity)]
    calc W < 256 ^ 20 := hW20
      _ = 256 ^ 6 * 256 ^ 14 := by norm_num
  rw [htake, hdrop, hcsrec]
  have hcore := crc_mismatch_core x cs p Δ hx hcs hp hΔlt hΔ0
  rw [← hV, ← hWdef] at hcore
  rw [show (2 : Nat) ^ 112 = 256 ^ 14 by norm_num] at hcore
  rw [if_pos hcore]

/-- **C7, amended.**  For every 112-bit value, substituting any single
character of the base-32 payload of its DID encoding (positions 8-36)
by a different lowercase base-32 alphabet character makes
`Siq.from_did` fail with a checksum mismatch, and no exception for an
accidental checksum collision is needed: none exists.  Substitutions
at positions 0-7 — the literal scheme prefix `did:siq:` — make
`from_did` fail with a base-32 parse error instead of a checksum
mismatch (see the counterexample to the original claim). -/
theorem C7_amended (x : Nat) (hx : x < 2 ^ 112) (s : List Char)
    (hs : Siq.to_did x = some s) (q : Nat) (hq8 : 8 ≤ q) (hq37 : q < 37)
    (c : Char) (hc : c ∈ b32LowerAlphabet) (hdiff : c ≠ s.getD q ' ') :
    Siq.from_did (s.set q c) = Except.error DecodeError.checksumMismatch := by
  have hse := to_did_eq x hx
  rw [hs] at hse
  have hseq : s = didHeader ++
      ((digitsBE 32 29 (2 ^ 112 * crc32 (digitsBE 256 14 x) + x)).map b32Char).map
        asciiLower := Option.some_inj.mp hse
  subst hseq
  have hpl : q - 8 < 29 := by omega
  have hlen29 : (((digitsBE 32 29 (2 ^ 112 * crc32 (digitsBE 256 14 x) + x)).map
      b32Char).map asciiLower).length = 29 := by
    rw [List.length_map, List.length_map, digitsBE_length]
  have hgd : (((digitsBE 32 29 (2 ^ 112 * crc32 (digitsBE 256 14 x) + x)).map
        b32Char).map asciiLower).getD (q - 8) ' '
      = asciiLower (b32Char ((digitsBE 32 29
          (2 ^ 112 * crc32 (digitsBE 256 14 x) + x)).getD (q - 8) 0)) := by
    rw [List.getD_eq_getElem _ ' ' (by rw [hlen29]; exact hpl)]
    rw [List.getElem_map, List.getElem_map]
    rw [List.getD_eq_getElem _ 0 (by rw [digitsBE_length]; exact hpl)]
  rw [List.getD_append_right _ _ _ _ (by exact hq8)] at hdiff
  rw [show didHeader.length = 8 from rfl] at hdiff
  rw [hgd] at hdiff
  rw [List.set_append_right q c (by exact hq8)]
  rw [show didHeader.length = 8 from rfl]
  exact from_did_set_mismatch x (crc32 (digitsBE 256 14 x))
    (2 ^ 112 * crc32 (digitsBE 256 14 x) + x) hx rfl rfl (q - 8) hpl c hc hdiff

set_option maxRecDepth 100000 in
/-- Concrete instance of the amended C7: corrupting the first payload
character of the DID encoding of the repository's own test
identifier. -/
theorem C7_amended_witness :
    7451106619238957490390643507207 < 2 ^ 112 ∧
      Siq.from_did ((['d', 'i', 'd', ':', 's', 'i', 'q', ':', 'i', 'u', 'x', 'v',
          'o', 'j', 'a', 'a', 'f', '4', 'c', '6', 's', '6', 'a', 'a', 'a', 'a',
          'a', 'a', 'a', 'a', 'a', 'a', 'a', 'a', 'a', 'a', 'h']).set 8 'b')
        = Except.error DecodeError.checksumMismatch :=
  ⟨by norm_num, C7_amended 7451106619238957490390643507207 (by norm_num)
    _ (by rw [to_did_eq 7451106619238957490390643507207 (by norm_num)]; rfl)
    8 (by norm_num) (by norm_num) 'b' (by decide) (by decide)⟩

set_option maxRecDepth 100000 in
/-- **C7, counterexample to the original claim.**  The original claim
quantifies over every single-character substitution in the DID
encoding by a (different) base-32 alphabet character.  At the scheme
prefix positions 0-7 it is false: replacing the leading `'d'` of the
encoding of the repository's test identifier by the base-32 character
`'a'` makes `Siq.from_did` fail with a base-32 parse error
(`binascii.Error`: the surviving `':'` characters are not base-32
digits), not the claimed checksum mismatch. -/
theorem C7_counterexample :
    ∃ s, Siq.to_did 7451106619238957490390643507207 = some s ∧
      'a' ∈ b32LowerAlphabet ∧ 'a' ≠ s.getD 0 ' ' ∧
      Siq.from_did (s.set 0 'a') = Except.error DecodeError.binasciiError ∧
      DecodeError.binasciiError ≠ DecodeError.checksumMismatch := by
  refine ⟨['d', 'i', 'd', ':', 's', 'i', 'q', ':', 'i', 'u', 'x', 'v',
      'o', 'j', 'a', 'a', 'f', '4', 'c', '6', 's', '6', 'a', 'a', 'a', 'a',
      'a', 'a', 'a', 'a', 'a', 'a', 'a', 'a', 'a', 'a', 'h'],
    ?_, by decide, by decide, ?_, by decide⟩
  · rw [to_did_eq 7451106619238957490390643507207 (by norm_num)]
    rfl
  · show Siq.from_did (['a', 'i', 'd', ':', 's', 'i', 'q', ':', 'i', 'u', 'x', 'v',
        'o', 'j', 'a', 'a', 'f', '4', 'c', '6', 's', '6', 'a', 'a', 'a', 'a',
        'a', 'a', 'a', 'a', 'a', 'a', 'a', 'a', 'a', 'a', 'h']) = _
    unfold Siq.from_did
    rw [show (['A', 'A', 'A'] ++ (removeHeader didHeader
        (['a', 'i', 'd', ':', 's', 'i', 'q', ':', 'i', 'u', 'x', 'v',
          'o', 'j', 'a', 'a', 'f', '4', 'c', '6', 's', '6', 'a', 'a', 'a', 'a',
          'a', 'a', 'a', 'a', 'a', 'a', 'a', 'a', 'a', 'a', 'h'])).map asciiUpper)
        = ['A', 'A', 'A', 'A', 'I', 'D', ':', 'S', 'I', 'Q', ':', 'I', 'U', 'X',
           'V', 'O', 'J', 'A', 'A', 'F', '4', 'C', '6', 'S', '6', 'A', 'A', 'A',
           'A', 'A', 'A', 'A', 'A', 'A', 'A', 'A', 'A', 'A', 'A', 'H'] from by decide]
    rw [show b32decode
        ['A', 'A', 'A', 'A', 'I', 'D', ':', 'S', 'I', 'Q', ':', 'I', 'U', 'X',
         'V', 'O', 'J', 'A', 'A', 'F', '4', 'C', '6', 'S', '6', 'A', 'A', 'A',
         'A', 'A', 'A', 'A', 'A', 'A', 'A', 'A', 'A', 'A', 'A', 'H'] = none from by
      rw [b32decode, if_neg (by decide)]
      rw [b32decodeCore]
      decide]

end Suou
